import Mathlib

/-!
Verification of the recap exam-generation and grading engine.

This file gives a shallow embedding of the core algorithms of the
recap server (Go) and proves properties of them:

* `utils` (`utils.go`): `ContainsInt`, `ContainsString`, `ParseDomainWeights`,
  `BytesToInt`.
* `exam/generator.go`: `GenerateExamPlan`, `selectQuestionsForExam`,
  the per-exam deterministic seeding and ordering of
  `GenerateExamsForCourse`, its database-write sequence, and
  `UpdateQuestionValidityScores`.
* `handlers/api_handlers.go`: the grading logic of `SubmitExamSession`
  and `RecordAnswer`.

Go `float64` values are modelled as exact rationals (`ℚ`), except in the
domain-weight parser where IEEE NaN is observable and floats are modelled
by `GoFloat` (a rational or NaN).  Machine integers (`int`, `int64`) are
modelled as `ℤ` with explicit wrap-around (`% 2 ^ 64`) where Go overflow
semantics matter.  Go string operations are modelled at the level of
character lists (ASCII-faithful).
-/

deriving instance DecidableEq for Except

namespace Recap

/-! ## Executable rational arithmetic

Mathlib's `ℚ` operations go through `Rat.add`/`Rat.mul`/... which are
`@[irreducible]`, so closed instances would not evaluate inside `decide`.
We define kernel-reducible versions via `Rat.divInt` and prove them equal
to the standard operations; all embedded code uses these. -/

def qadd (a b : ℚ) : ℚ := Rat.divInt (a.num * (b.den : ℤ) + b.num * (a.den : ℤ)) ((a.den : ℤ) * (b.den : ℤ))

def qneg (a : ℚ) : ℚ := Rat.divInt (-a.num) ((a.den : ℤ))

def qsub (a b : ℚ) : ℚ := qadd a (qneg b)

def qmul (a b : ℚ) : ℚ := Rat.divInt (a.num * b.num) ((a.den : ℤ) * (b.den : ℤ))

def qabs (a : ℚ) : ℚ := if a < 0 then qneg a else a

theorem qadd_eq (a b : ℚ) : qadd a b = a + b := by
  have ha : ((a.den : ℚ)) ≠ 0 := by exact_mod_cast a.den_nz
  have hb : ((b.den : ℚ)) ≠ 0 := by exact_mod_cast b.den_nz
  rw [qadd, Rat.divInt_eq_div]
  push_cast
  conv_rhs => rw [← Rat.num_div_den a, ← Rat.num_div_den b]
  rw [div_add_div _ _ ha hb]
  ring_nf

theorem qneg_eq (a : ℚ) : qneg a = -a := by
  rw [qneg, Rat.divInt_eq_div]
  push_cast
  rw [neg_div, Rat.num_div_den]

theorem qsub_eq (a b : ℚ) : qsub a b = a - b := by
  rw [qsub, qadd_eq, qneg_eq, sub_eq_add_neg]

theorem qmul_eq (a b : ℚ) : qmul a b = a * b := by
  have ha : ((a.den : ℚ)) ≠ 0 := by exact_mod_cast a.den_nz
  have hb : ((b.den : ℚ)) ≠ 0 := by exact_mod_cast b.den_nz
  rw [qmul, Rat.divInt_eq_div]
  push_cast
  conv_rhs => rw [← Rat.num_div_den a, ← Rat.num_div_den b]
  rw [div_mul_div_comm]

theorem qabs_eq (a : ℚ) : qabs a = |a| := by
  rw [qabs]
  split
  · rw [qneg_eq, abs_of_neg (by assumption)]
  · rw [abs_of_nonneg (by linarith [not_lt.mp (by assumption : ¬ a < 0)])]

/-- `Rat.floor` is the floor function. -/
theorem ratFloor_eq (x : ℚ) : Rat.floor x = ⌊x⌋ := rfl

/-- Go's `math.Round` (round half away from zero) as used on the
nonnegative values occurring in this code base; on nonnegative input it
agrees with rounding half up, which is Mathlib's `round`. -/
def goRound (x : ℚ) : ℤ := Rat.floor (qadd x (Rat.divInt 1 2))

theorem goRound_eq (x : ℚ) : goRound x = round x := by
  rw [goRound, qadd_eq, ratFloor_eq, round_eq]
  norm_num [Rat.divInt_eq_div]

/-- Go's conversion `int(f)` of a float to an integer: truncation toward
zero (`-⌊-x⌋` for negative `x`, `⌊x⌋` otherwise). -/
def goTrunc (x : ℚ) : ℤ := if x < 0 then -(Rat.floor (qneg x)) else Rat.floor x

theorem goTrunc_eq (x : ℚ) : goTrunc x = if x < 0 then ⌈x⌉ else ⌊x⌋ := by
  rw [goTrunc, qneg_eq]
  split
  · rw [ratFloor_eq, ← Int.ceil_neg, neg_neg]
  · rw [ratFloor_eq]

theorem goTrunc_intCast (n : ℤ) : goTrunc (n : ℚ) = n := by
  rw [goTrunc_eq]
  split <;> simp

/-! ## `utils.go` -/

/-- `utils.ContainsInt`: membership test in an int slice. -/
def ContainsInt (slice : List ℤ) (item : ℤ) : Bool :=
  slice.any (fun a => a == item)

/-- `utils.ContainsString`: membership test in a string slice. -/
def ContainsString (slice : List String) (item : String) : Bool :=
  slice.any (fun a => a == item)

theorem ContainsInt_iff (l : List ℤ) (x : ℤ) : ContainsInt l x = true ↔ x ∈ l := by
  rw [ContainsInt, List.any_eq_true]
  constructor
  · rintro ⟨a, ha, h⟩
    rw [beq_iff_eq] at h
    rwa [← h]
  · intro h
    exact ⟨x, h, beq_self_eq_true x⟩

theorem ContainsString_iff (l : List String) (x : String) :
    ContainsString l x = true ↔ x ∈ l := by
  rw [ContainsString, List.any_eq_true]
  constructor
  · rintro ⟨a, ha, h⟩
    rw [beq_iff_eq] at h
    rwa [← h]
  · intro h
    exact ⟨x, h, beq_self_eq_true x⟩

/-- Go whitespace as recognised by `unicode.IsSpace`, restricted to the
ASCII range (the only characters exercised here). -/
def isGoSpace (c : Char) : Bool :=
  c == ' ' || c == '\t' || c == '\n' || c == '\r' || c == '\x0b' || c == '\x0c'

/-- `strings.TrimSpace`, at character-list level. -/
def trimChars (cs : List Char) : List Char :=
  ((cs.dropWhile isGoSpace).reverse.dropWhile isGoSpace).reverse

/-- `strings.TrimSpace` on strings. -/
def TrimSpace (s : String) : String := String.mk (trimChars s.data)

/-- `strings.ToLower`, restricted to ASCII case mapping (`Char.toLower`
maps `A`–`Z` to `a`–`z` and fixes everything else). -/
def ToLower (s : String) : String := String.mk (s.data.map Char.toLower)

/-- Splitting a character list at every occurrence of a separator
character; `strings.Split` with a one-character separator.  The result
always has one more entry than the number of separators, so it is never
empty (matching Go, where `strings.Split(s, sep)` on a nonempty `sep`
returns the fields between separators). -/
def splitOnChar (sep : Char) : List Char → List (List Char)
  | [] => [[]]
  | c :: cs =>
    let rest := splitOnChar sep cs
    if c = sep then [] :: rest
    else (c :: rest.headD []) :: rest.tail

/-! ## Go float64 values with NaN

`ParseDomainWeights` validates `float64` weights with `<`, `>` and
`math.Abs`; IEEE NaN makes every comparison false, which is observable
behaviour of that function, so floats there are modelled as a rational or
NaN.  All comparisons with NaN are false, and any arithmetic involving
NaN yields NaN, exactly as for IEEE floats. -/

inductive GoFloat where
  | nan : GoFloat
  | num (q : ℚ) : GoFloat
deriving DecidableEq, Repr

namespace GoFloat

/-- Float addition: NaN absorbs. -/
def add : GoFloat → GoFloat → GoFloat
  | num a, num b => num (qadd a b)
  | _, _ => nan

/-- Float subtraction: NaN absorbs. -/
def sub : GoFloat → GoFloat → GoFloat
  | num a, num b => num (qsub a b)
  | _, _ => nan

/-- Float `<`: false whenever an operand is NaN. -/
def lt : GoFloat → GoFloat → Bool
  | num a, num b => a < b
  | _, _ => false

/-- Float `>`: false whenever an operand is NaN. -/
def gt : GoFloat → GoFloat → Bool
  | num a, num b => b < a
  | _, _ => false

/-- `math.Abs`: NaN maps to NaN. -/
def abs : GoFloat → GoFloat
  | num a => num (qabs a)
  | nan => nan

end GoFloat

/-- The digits of a character list interpreted in base 10; `none` if any
character is not a digit.  (An empty list yields `some 0`; callers check
non-emptiness separately.) -/
def digitsToNat : List Char → Option ℕ
  | [] => some 0
  | c :: cs =>
    if c.isDigit then
      (digitsToNat cs).map (fun n => (c.toNat - 48) * 10 ^ cs.length + n)
    else
      none

/-- Model of `strconv.ParseFloat` restricted to the forms exercised by
this code base: an optional sign followed by a plain decimal literal
(`123`, `0.5`, `1.`, `.5`), or the case-insensitive string `nan` which Go
parses as IEEE NaN.  Exponent and infinity forms are omitted; they only
affect which strings are rejected, never the value of an accepted
in-range weight. -/
def ParseFloat (s : String) : Option GoFloat :=
  if s.data.map Char.toLower = "nan".data then some .nan
  else
    let (sign, rest) : ℤ × List Char :=
      match s.data with
      | '+' :: cs => (1, cs)
      | '-' :: cs => (-1, cs)
      | cs => (1, cs)
    match splitOnChar '.' rest with
    | [ip] =>
      if ip.isEmpty then none
      else (digitsToNat ip).map (fun n => .num (Rat.divInt (sign * n) 1))
    | [ip, fp] =>
      if ip.isEmpty && fp.isEmpty then none
      else
        match digitsToNat ip, digitsToNat fp with
        | some n, some f => some (.num (Rat.divInt (sign * (n * 10 ^ fp.length + f)) (10 ^ fp.length)))
        | _, _ => none
    | _ => none

/-- Inserting into a Go `map[string]float64`: assignment overwrites the
entry with the same key, otherwise appends. -/
def mapInsert (l : List (String × GoFloat)) (k : String) (v : GoFloat) :
    List (String × GoFloat) :=
  if l.any (fun p => p.1 == k) then
    l.map (fun p => if p.1 == k then (k, v) else p)
  else
    l ++ [(k, v)]

/-- One iteration of the `ParseDomainWeights` loop: parse `Name:Weight`,
validate the range, and accumulate the weight into the running total. -/
def parseWeightPair (pair : String) (weights : List (String × GoFloat))
    (totalWeight : GoFloat) : Except String (List (String × GoFloat) × GoFloat) :=
  match (splitOnChar ':' pair.data).map String.mk with
  | [p1, p2] =>
    let domainName := TrimSpace p1
    let weightStr := TrimSpace p2
    match ParseFloat weightStr with
    | none => .error ("invalid weight for domain '" ++ domainName ++ "': " ++ weightStr)
    | some weight =>
      if weight.lt (.num 0) || weight.gt (.num 1) then
        .error ("domain weight for '" ++ domainName ++ "' must be between 0.0 and 1.0")
      else
        .ok (mapInsert weights domainName weight, totalWeight.add weight)
  | _ => .error ("invalid domain format: " ++ pair ++ ". Expected 'Name:Weight'")

/-- The loop of `utils.ParseDomainWeights` over the `|`-separated pairs. -/
def parseWeightPairs : List String → List (String × GoFloat) → GoFloat →
    Except String (List (String × GoFloat) × GoFloat)
  | [], weights, total => .ok (weights, total)
  | pair :: rest, weights, total =>
    match parseWeightPair pair weights total with
    | .error e => .error e
    | .ok (weights', total') => parseWeightPairs rest weights' total'

/-- `utils.ParseDomainWeights`: parses a `|`-separated string of
`Name:Weight` pairs into a map and rejects it unless
`math.Abs(totalWeight-1.0) <= 0.01`. -/
def ParseDomainWeights (domainStr : String) : Except String (List (String × GoFloat)) :=
  match parseWeightPairs ((splitOnChar '|' domainStr.data).map String.mk) [] (.num 0) with
  | .error e => .error e
  | .ok (weights, totalWeight) =>
    if (totalWeight.sub (.num 1)).abs.gt (.num (Rat.divInt 1 100)) then
      -- Go renders the sum with `%.2f`; the exact text of the numeric
      -- rendering is abstracted by `repr`.
      .error ("domain weights do not sum to 1.0 (sum is " ++ toString (repr totalWeight) ++ ")")
    else
      .ok weights

/-- The float sum of the values stored in a weight map (used to compare
the accumulated `totalWeight` with the contents of the returned map). -/
def valSum (l : List (String × GoFloat)) : GoFloat :=
  l.foldl (fun a p => a.add p.2) (.num 0)

/-- The specification-side range condition on a parsed weight: a real
number in `[0,1]`, or NaN (which the Go comparisons cannot reject). -/
def rangeOK (v : GoFloat) : Prop :=
  v = GoFloat.nan ∨ ∃ q : ℚ, v = GoFloat.num q ∧ 0 ≤ q ∧ q ≤ 1

/-- `utils.BytesToInt`: folds the first (at most) 8 bytes of a slice into
an `int64` via `i = (i << 8) | int64(val)`.  The bit pattern is
accumulated as an unsigned 64-bit value and reinterpreted as a
two's-complement `int64` at the end, which is exactly what the Go shifts
and or-operations compute for byte inputs. -/
def BytesToInt (b : List ℕ) : ℤ :=
  let u := (b.take 8).foldl (fun acc v => ((acc <<< 8) % 2 ^ 64) ||| (v % 256)) 0
  if u < 2 ^ 63 then (u : ℤ) else (u : ℤ) - 2 ^ 64

/-- The big-endian (base-256) value of a byte list. -/
def beBytes (b : List ℕ) : ℕ :=
  b.foldl (fun acc v => acc * 256 + v) 0

/-! ## `exam/generator.go`: the exam planner

A question carries many presentation fields in `models.Question`; the
generator reads only the identity `ID` and the joined domain name
`QuestionDomainName`, so those are the fields of the embedded record. -/

structure Question where
  id : ℤ
  domain : String
deriving DecidableEq, Repr

structure ExamPlan where
  numExams : ℤ
  questionsPerExam : ℤ
  perDomainPerExam : List (String × ℤ)
deriving DecidableEq, Repr, Inhabited

/-- The per-domain tally `domainCounts` (a Go map with zero default). -/
def domainCountsOf (questions : List Question) (d : String) : ℤ :=
  ((questions.filter (fun q => q.domain == d)).length : ℤ)

/-- The per-domain requirement of a candidate exam size:
`required = int(math.Round(float64(qPerExam) * weight))`, forced to `1`
when it rounds to `0` and the weight is positive. -/
def requiredQuestions (qPerExam : ℤ) (weight : ℚ) : ℤ :=
  let required := goRound (qmul (qPerExam : ℚ) weight)
  if required = 0 ∧ 0 < weight then 1 else required

/-- The requirements of one candidate size over all weighted domains. -/
def candidateReqs (domainWeights : List (String × ℚ)) (qPerExam : ℤ) :
    List (String × ℤ) :=
  domainWeights.map (fun p => (p.1, requiredQuestions qPerExam p.2))

/-- A candidate is feasible when no domain's available count is below its
requirement (`domainCounts[domain] < required` aborts the candidate). -/
def candidateFeasible (domainCounts : String → ℤ) (reqs : List (String × ℤ)) : Bool :=
  reqs.all (fun p => decide (p.2 ≤ domainCounts p.1))

/-- `actualQuestionsInPlan`: the summed domain requirements. -/
def candidateUsed (reqs : List (String × ℤ)) : ℤ :=
  (reqs.map Prod.snd).sum

/-- The loop state of `GenerateExamPlan`. -/
structure PlanSearch where
  bestPlan : ExamPlan
  bestRemainder : ℤ
  bestNumExams : ℤ
deriving DecidableEq, Repr

/-- One iteration of the `GenerateExamPlan` candidate loop.  Integer
division and modulus are Go's truncated `/` and `%` (`Int.tdiv`,
`Int.tmod`). -/
def planStep (totalQuestions : ℤ) (domainCounts : String → ℤ)
    (domainWeights : List (String × ℚ)) (st : PlanSearch) (qPerExam : ℤ) : PlanSearch :=
  let reqs := candidateReqs domainWeights qPerExam
  if candidateFeasible domainCounts reqs then
    let used := candidateUsed reqs
    if used = 0 then st
    else
      let numExamsQ := totalQuestions.tdiv used
      let remainderQ := totalQuestions.tmod used
      if remainderQ < st.bestRemainder ∨ (remainderQ = st.bestRemainder ∧ st.bestNumExams < numExamsQ) then
        ⟨⟨numExamsQ, used, reqs⟩, remainderQ, numExamsQ⟩
      else st
  else st

/-- The integers from `lo` to `hi` inclusive (empty when `hi < lo`):
the candidate sizes visited by `for qPerExam := minQ; qPerExam <= maxQ`. -/
def intRange (lo hi : ℤ) : List ℤ :=
  (List.range (hi + 1 - lo).toNat).map (fun i : ℕ => lo + (i : ℤ))

def insufficientMsg : String :=
  "insufficient questions to form any valid exam based on min/max questions and domain weights"

/-- A candidate exam size is *good* when it survives both skip rules of
the loop: every domain's available count reaches its requirement, and
the summed requirements are nonzero. -/
def goodCandidate (questions : List Question) (domainWeights : List (String × ℚ))
    (q : ℤ) : Bool :=
  candidateFeasible (domainCountsOf questions) (candidateReqs domainWeights q) &&
    !(candidateUsed (candidateReqs domainWeights q) == 0)

/-- The plan a good candidate would produce. -/
def candidatePlan (questions : List Question) (domainWeights : List (String × ℚ))
    (q : ℤ) : ExamPlan :=
  ⟨(questions.length : ℤ).tdiv (candidateUsed (candidateReqs domainWeights q)),
   candidateUsed (candidateReqs domainWeights q),
   candidateReqs domainWeights q⟩

/-- A candidate's remainder: `totalQuestions % actualQuestionsInPlan`. -/
def candidateRem (questions : List Question) (domainWeights : List (String × ℚ))
    (q : ℤ) : ℤ :=
  (questions.length : ℤ).tmod (candidateUsed (candidateReqs domainWeights q))

/-- A candidate's exam count: `totalQuestions / actualQuestionsInPlan`. -/
def candidateNum (questions : List Question) (domainWeights : List (String × ℚ))
    (q : ℤ) : ℤ :=
  (questions.length : ℤ).tdiv (candidateUsed (candidateReqs domainWeights q))

/-- The invariant of the candidate loop of `GenerateExamPlan`: either no
processed candidate was good and the state is untouched, or the state
records a good processed candidate whose remainder is minimal (and,
among equal remainders, whose exam count is maximal) over the processed
candidates. -/
def planSearchInv (questions : List Question) (dw : List (String × ℚ))
    (processed : List ℤ) (st : PlanSearch) : Prop :=
  (st = ⟨default, (questions.length : ℤ), 0⟩ ∧
    ∀ q ∈ processed, goodCandidate questions dw q = false) ∨
  (∃ q ∈ processed, goodCandidate questions dw q = true ∧
    st = ⟨candidatePlan questions dw q, candidateRem questions dw q,
      candidateNum questions dw q⟩ ∧
    ∀ r ∈ processed, goodCandidate questions dw r = true →
      candidateRem questions dw q ≤ candidateRem questions dw r ∧
      (candidateRem questions dw q = candidateRem questions dw r →
        candidateNum questions dw r ≤ candidateNum questions dw q))

/-- A ten-question pool, five questions in each of two domains, used to
evaluate the planner on a closed input. -/
def pool10 : List Question :=
  [⟨1, "A"⟩, ⟨2, "A"⟩, ⟨3, "A"⟩, ⟨4, "A"⟩, ⟨5, "A"⟩,
   ⟨6, "B"⟩, ⟨7, "B"⟩, ⟨8, "B"⟩, ⟨9, "B"⟩, ⟨10, "B"⟩]

/-- Two domains of weight one half each. -/
def dwAB : List (String × ℚ) :=
  [("A", Rat.divInt 1 2), ("B", Rat.divInt 1 2)]

/-- `exam.GenerateExamPlan`. -/
def GenerateExamPlan (questions : List Question) (minQ maxQ : ℤ)
    (domainWeights : List (String × ℚ)) : Except String ExamPlan :=
  let totalQuestions : ℤ := (questions.length : ℤ)
  let final := (intRange minQ maxQ).foldl
    (planStep totalQuestions (domainCountsOf questions) domainWeights)
    ⟨default, totalQuestions, 0⟩
  if final.bestPlan.questionsPerExam = 0 then .error insufficientMsg
  else .ok final.bestPlan

/-! ## `exam/generator.go`: the deterministic selector

The selector consumes Go's `math/rand` generator, which is standard
library code external to this repository; it is modelled as an arbitrary
deterministic generator: a state type with an initialisation from an
`int64` seed and a bounded-draw function `randn` modelling
`Int63n`/`int31n` (a value in `[0, n)` plus the successor state).  The
selection invariants proved below hold for every such generator, and a
concrete linear-congruential instance is used to evaluate closed
statements. -/

structure RNG (σ : Type) where
  init : ℤ → σ
  randn : σ → ℕ → ℕ × σ
  randn_lt : ∀ s n, 0 < n → (randn s n).1 < n

/-- Exchanging two positions of a list (identity when either index is out
of range); the `swap` callback of `rand.Shuffle`. -/
def swapList {α : Type _} (l : List α) (i j : ℕ) : List α :=
  match l[i]?, l[j]? with
  | some a, some b => (l.set i b).set j a
  | _, _ => l

def shuffleStep {σ : Type} {α : Type _} (g : RNG σ) : List α × σ → ℕ → List α × σ
  | (l, s), i =>
    let js := g.randn s (i + 1)
    (swapList l i js.1, js.2)

/-- `rand.Shuffle`: a Fisher–Yates pass with `i` running from `n-1` down
to `1`, drawing `j := randn(i+1)` and swapping positions `i` and `j`. -/
def shuffle {σ : Type} {α : Type _} (g : RNG σ) (l : List α) (s : σ) : List α × σ :=
  ((List.range (l.length - 1)).reverse.map (fun k => k + 1)).foldl (shuffleStep g) (l, s)

def notEnoughMsg (domain : String) (avail : ℕ) (req : ℤ) : String :=
  "not enough unique questions in domain '" ++ domain ++ "' (available: " ++
    toString avail ++ ", required: " ++ toString req ++ ")"

/-- `questionsByDomain`: grouping by domain name preserves pool order. -/
def questionsByDomain (allQuestions : List Question) (d : String) : List Question :=
  allQuestions.filter (fun q => q.domain == d)

/-- The `for domain, count := range perDomainRequired` loop of
`selectQuestionsForExam`.  `usedQuestionIDs` accumulates the identifiers
chosen so far within this exam (Go's `map[int]bool` used as a set); the
quota list parameter fixes one enumeration order of the Go map. -/
def selectLoop {σ : Type} (g : RNG σ) (allQuestions : List Question) :
    List (String × ℤ) → List ℤ → σ → Except String (List Question)
  | [], _, _ => .ok []
  | (domain, count) :: rest, usedQuestionIDs, s =>
    let available := questionsByDomain allQuestions domain
    let filtered := available.filter (fun q => !(ContainsInt usedQuestionIDs q.id))
    let shuffled := shuffle g filtered s
    if (shuffled.1.length : ℤ) < count then
      .error (notEnoughMsg domain shuffled.1.length count)
    else
      let chosen := shuffled.1.take count.toNat
      match selectLoop g allQuestions rest (usedQuestionIDs ++ chosen.map (fun q => q.id)) shuffled.2 with
      | .error e => .error e
      | .ok restSelected => .ok (chosen ++ restSelected)

/-- `exam.selectQuestionsForExam`, with the generator freshly seeded as
in `rand.New(rand.NewSource(seed))`. -/
def selectQuestionsForExam {σ : Type} (g : RNG σ) (allQuestions : List Question)
    (perDomainRequired : List (String × ℤ)) (seed : ℤ) : Except String (List Question) :=
  selectLoop g allQuestions perDomainRequired [] (g.init seed)

/-- A concrete linear-congruential generator used to evaluate the
selector on closed inputs (standing in for the `math/rand` stream). -/
def lcgNext (s : ℕ) : ℕ := (s * 6364136223846793005 + 1442695040888963407) % 2 ^ 64

def lcg : RNG ℕ where
  init seed := (seed % 2 ^ 64).toNat
  randn s n :=
    let s2 := lcgNext s
    (if n = 0 then 0 else s2 % n, s2)
  randn_lt := by
    intro s n hn
    simp only []
    rw [if_neg (Nat.pos_iff_ne_zero.mp hn)]
    exact Nat.mod_lt _ hn

/-! ## `exam/generator.go`: seeding and per-exam pipeline -/

/-- `fmt.Sprintf("%s:%s:%d", examBankVersion, courseMarketingName, i)`. -/
def seedString (examBankVersion courseMarketingName : String) (i : ℤ) : String :=
  examBankVersion ++ ":" ++ courseMarketingName ++ ":" ++ toString i

/-- The per-exam seed: hash the seed string with SHA-256 (the hash is
standard library code, abstracted as a byte-list-valued function) and
fold the first 8 bytes into an `int64` with `BytesToInt`. -/
def deriveSeed (hash : String → List ℕ) (examBankVersion courseMarketingName : String)
    (i : ℤ) : ℤ :=
  BytesToInt (hash (seedString examBankVersion courseMarketingName i))

/-- Lines 50–83 of `GenerateExamsForCourse` for one exam index: derive
the deterministic seed, select the questions, then reshuffle the
selection with a generator freshly seeded with the same seed to fix the
question order within the exam. -/
def generateExamQuestions {σ : Type} (g : RNG σ) (hash : String → List ℕ)
    (questions : List Question) (perDomainPerExam : List (String × ℤ))
    (examBankVersion courseMarketingName : String) (i : ℤ) : Except String (List Question) :=
  let seed := deriveSeed hash examBankVersion courseMarketingName i
  match selectQuestionsForExam g questions perDomainPerExam seed with
  | .error e => .error e
  | .ok selected => .ok (shuffle g selected (g.init seed)).1

/-! ## `GenerateExamsForCourse`: the database write sequence

`GenerateExamsForCourse` issues its writes through `pool.Exec` /
`pool.QueryRow` directly (no transaction object): one statement batch
deleting the prior `exam_questions` and `exams` rows of the course and
bank version, then, per generated exam, one `INSERT` into `exams`
followed by one `INSERT` per question into `exam_questions`.  Each such
call commits on its own, so a run corresponds to executing a prefix of
the statement list: the whole list when every statement succeeds, a
proper prefix when one fails.  The store is modelled relationally, with
exams keyed by (course, version, title) — titles are distinct per run
since they embed the exam number. -/

structure ExamRow where
  courseId : ℤ
  examBankVersion : String
  title : String
deriving DecidableEq, Repr

structure ExamQuestionRow where
  courseId : ℤ
  examBankVersion : String
  examTitle : String
  questionId : ℤ
  questionOrder : ℤ
deriving DecidableEq, Repr

structure ExamStore where
  exams : List ExamRow
  examQuestions : List ExamQuestionRow
deriving DecidableEq, Repr

inductive DBOp where
  | clearExams (courseId : ℤ) (examBankVersion : String)
  | insertExam (row : ExamRow)
  | insertExamQuestion (row : ExamQuestionRow)
deriving DecidableEq, Repr

/-- The effect of one committed statement on the store. -/
def applyOp (st : ExamStore) : DBOp → ExamStore
  | .clearExams c v =>
    ⟨st.exams.filter (fun e => !(e.courseId == c && e.examBankVersion == v)),
     st.examQuestions.filter (fun r => !(r.courseId == c && r.examBankVersion == v))⟩
  | .insertExam row => ⟨st.exams ++ [row], st.examQuestions⟩
  | .insertExamQuestion row => ⟨st.exams, st.examQuestions ++ [row]⟩

def applyOps (st : ExamStore) (ops : List DBOp) : ExamStore :=
  ops.foldl applyOp st

/-- `fmt.Sprintf("%s Practice Exam %d", courseMarketingName, i+1)`. -/
def examTitle (courseMarketingName : String) (i : ℤ) : String :=
  courseMarketingName ++ " Practice Exam " ++ toString (i + 1)

/-- The statements inserting one generated exam: the `exams` row, then
one `exam_questions` row per selected question, `question_order`
starting from 1. -/
def opsForExam (c : ℤ) (v title : String) (qids : List ℤ) : List DBOp :=
  .insertExam ⟨c, v, title⟩ ::
    qids.enum.map (fun p => .insertExamQuestion ⟨c, v, title, p.2, (p.1 : ℤ) + 1⟩)

/-- The statements issued by the `for i := 0; i < plan.NumExams; i++`
loop from exam index `i` on, for the per-exam selections `examsData`. -/
def generationOpsFrom (c : ℤ) (v courseMarketingName : String) :
    ℕ → List (List ℤ) → List DBOp
  | _, [] => []
  | i, qids :: rest =>
    opsForExam c v (examTitle courseMarketingName (i : ℤ)) qids ++
      generationOpsFrom c v courseMarketingName (i + 1) rest

/-- The full statement sequence of a generation run for a course and
bank version whose per-exam selections are `examsData` (exam index `i`
contributing the title `courseMarketingName Practice Exam i+1`). -/
def generationOps (c : ℤ) (v courseMarketingName : String) (examsData : List (List ℤ)) :
    List DBOp :=
  .clearExams c v :: generationOpsFrom c v courseMarketingName 0 examsData

/-- Whether a statement is the clearing batch. -/
def DBOp.isClear : DBOp → Bool
  | .clearExams _ _ => true
  | _ => false

/-- The `exams` rows inserted by a statement list. -/
def examRowsOf (ops : List DBOp) : List ExamRow :=
  ops.filterMap (fun op =>
    match op with
    | .insertExam r => some r
    | _ => none)

/-- The `exams` rows the generation loop inserts from index `i` on. -/
def examRowsFrom (c : ℤ) (v courseMarketingName : String) :
    ℕ → List (List ℤ) → List ExamRow
  | _, [] => []
  | i, _ :: rest =>
    ⟨c, v, examTitle courseMarketingName (i : ℤ)⟩ ::
      examRowsFrom c v courseMarketingName (i + 1) rest

/-! ## `handlers/api_handlers.go`: grading -/

namespace Grading

structure Choice where
  id : ℤ
  text : String
  isCorrect : Bool
deriving DecidableEq, Repr

/-- The grading-relevant columns of one exam-question row as read by
`SubmitExamSession`: the joined question fields, the `choices` rows, and
the `fill_blank_answers` rows (`acceptableAnswers`, stored lower-cased by
ingestion). -/
structure GQuestion where
  questionText : String
  questionType : String
  explanation : String
  domain : String
  choices : List Choice
  acceptableAnswers : List String
deriving DecidableEq, Repr

structure DetailedQuestionReport where
  question : String
  explanation : String
  result : String
  yourAnswer : List String
  correctAnswer : List String
deriving DecidableEq, Repr

/-- Ingestion stores each acceptable answer lower-cased
(`strings.ToLower(answer)` in `ProcessCourseData`). -/
def storeAcceptableAnswers (raw : List String) : List String :=
  raw.map ToLower

/-- `allUserChoicesCorrect` after the choice loop: no correct choice was
left unselected. -/
def allUserChoicesCorrect (choices : List Choice) (user : List ℤ) : Bool :=
  choices.all (fun c => !c.isCorrect || ContainsInt user c.id)

/-- `userSelectedAnyIncorrect` after the choice loop. -/
def userSelectedAnyIncorrect (choices : List Choice) (user : List ℤ) : Bool :=
  choices.any (fun c => !c.isCorrect && ContainsInt user c.id)

/-- `userSelectedCorrectCount` after the choice loop. -/
def userSelectedCorrectCount (choices : List Choice) (user : List ℤ) : ℕ :=
  (choices.filter (fun c => c.isCorrect && ContainsInt user c.id)).length

/-- `yourAnswerTexts` for choice questions: the texts of the selected
choice rows, in row order. -/
def yourAnswerTexts (choices : List Choice) (user : List ℤ) : List String :=
  (choices.filter (fun c => ContainsInt user c.id)).map (fun c => c.text)

/-- The key set of `correctChoicesMap` (a Go `map[int]bool` holding the
identifiers of the correct choices). -/
def correctChoicesMapKeys (choices : List Choice) : List ℤ :=
  ((choices.filter (fun c => c.isCorrect)).map (fun c => c.id)).dedup

/-- `correctAnswerTexts` for choice questions. -/
def correctAnswerTextsOf (choices : List Choice) : List String :=
  (choices.filter (fun c => c.isCorrect)).map (fun c => c.text)

/-- The correctness decision of `SubmitExamSession` for choice-based
question types (lines 676–680). -/
def isCorrectChoiceSubmit (qType : String) (choices : List Choice) (user : List ℤ) : Bool :=
  if qType = "single" || qType = "truefalse" then
    allUserChoicesCorrect choices user && !userSelectedAnyIncorrect choices user &&
      userSelectedCorrectCount choices user == 1 && user.length == 1
  else if qType = "multi" then
    allUserChoicesCorrect choices user && !userSelectedAnyIncorrect choices user &&
      userSelectedCorrectCount choices user == (correctChoicesMapKeys choices).length &&
      user.length == (correctChoicesMapKeys choices).length
  else false

/-- The correctness decision of `SubmitExamSession` for `fillblank`
(lines 682–708): the stored rows are lower-cased again while scanning,
and the submission is trimmed then lower-cased. -/
def gradeFillblankSubmit (acceptableRows : List String) (userTextAnswer : Option String) : Bool :=
  let acceptableAnswers := acceptableRows.map ToLower
  match userTextAnswer with
  | some t => ContainsString acceptableAnswers (ToLower (TrimSpace t))
  | none => false

/-- One iteration of the `SubmitExamSession` scoring loop: the
correctness flag and the detailed report entry for one exam question.
An absent `user_answers` row scans as an empty choice array and a nil
text answer.  The `result` is `"correct"`/`"incorrect"`, overridden to
`"skipped"` when no selected-choice text was collected and the text
answer is nil. -/
def gradeExamQuestion (q : GQuestion) (userChoiceIds : List ℤ)
    (userTextAnswer : Option String) : Bool × DetailedQuestionReport :=
  let isChoiceType := q.questionType = "single" || q.questionType = "multi" ||
    q.questionType = "truefalse"
  let isCorrect :=
    if isChoiceType then isCorrectChoiceSubmit q.questionType q.choices userChoiceIds
    else if q.questionType = "fillblank" then
      gradeFillblankSubmit q.acceptableAnswers userTextAnswer
    else false
  let yourAnswers :=
    if isChoiceType then yourAnswerTexts q.choices userChoiceIds
    else if q.questionType = "fillblank" then
      match userTextAnswer with
      | some t => [t]
      | none => []
    else []
  let correctAnswers :=
    if isChoiceType then correctAnswerTextsOf q.choices
    else if q.questionType = "fillblank" then q.acceptableAnswers.map ToLower
    else []
  let result0 := if isCorrect then "correct" else "incorrect"
  let result := if yourAnswers.isEmpty && userTextAnswer.isNone then "skipped" else result0
  (isCorrect, ⟨q.questionText, q.explanation, result, yourAnswers, correctAnswers⟩)

/-- One exam question of a submitted attempt together with the recorded
answer (an unanswered question carries `[]` and `none`, as produced by
the `LEFT JOIN`). -/
structure AnsweredQuestion where
  question : GQuestion
  choiceIds : List ℤ
  textAnswer : Option String
deriving DecidableEq, Repr

structure ExamSubmissionResponse where
  scorePercent : ℤ
  pass : Bool
  detailedReport : List DetailedQuestionReport
deriving DecidableEq, Repr

/-- The scoring loop of `SubmitExamSession`: accumulated correct count
and detailed report. -/
def submitFold (qs : List AnsweredQuestion) : ℕ × List DetailedQuestionReport :=
  qs.foldl
    (fun acc aq =>
      let g := gradeExamQuestion aq.question aq.choiceIds aq.textAnswer
      (acc.1 + (if g.1 then 1 else 0), acc.2 ++ [g.2]))
    (0, [])

/-- `SubmitExamSession` (scoring part): zero questions short-circuit to
score 0 / fail; otherwise
`finalScorePercent = int(math.Round(float64(correctCount)/float64(totalQuestions)*100))`
and `passed = finalScorePercent >= int(passingScore)`.  (The per-domain
breakdown map is modelled separately below.) -/
def SubmitExamSession (qs : List AnsweredQuestion) (passingScore : ℚ) :
    ExamSubmissionResponse :=
  if qs.length = 0 then ⟨0, false, []⟩
  else
    let g := submitFold qs
    let finalScorePercent := goRound (qmul (Rat.divInt (g.1 : ℤ) (qs.length : ℤ)) 100)
    ⟨finalScorePercent, decide (goTrunc passingScore ≤ finalScorePercent), g.2⟩

/-- `domainTotalCounts` of the scoring loop. -/
def domainTotalCount (qs : List AnsweredQuestion) (d : String) : ℕ :=
  (qs.filter (fun aq => aq.question.domain == d)).length

/-- `domainCorrectCounts` of the scoring loop. -/
def domainCorrectCount (qs : List AnsweredQuestion) (d : String) : ℕ :=
  (qs.filter (fun aq =>
    aq.question.domain == d &&
      (gradeExamQuestion aq.question aq.choiceIds aq.textAnswer).1)).length

/-- The per-domain breakdown percentage of `SubmitExamSession`. -/
def domainBreakdown (qs : List AnsweredQuestion) (d : String) : ℤ :=
  let total := domainTotalCount qs d
  if 0 < total then
    goRound (qmul (Rat.divInt (domainCorrectCount qs d : ℤ) (total : ℤ)) 100)
  else 0

/-- The correctness decision of `RecordAnswer` (practice mode) for
choice-based types (lines 347–351); `RecordAnswer` reaches it only for
`single`, `multi` and `truefalse` questions, the `else` branch being the
`multi` case. -/
def isCorrectChoiceRecord (qType : String) (choices : List Choice) (user : List ℤ) : Bool :=
  if qType = "single" || qType = "truefalse" then
    allUserChoicesCorrect choices user && !userSelectedAnyIncorrect choices user &&
      user.length == 1 && (correctChoicesMapKeys choices).length == 1
  else
    allUserChoicesCorrect choices user && !userSelectedAnyIncorrect choices user &&
      user.length == (correctChoicesMapKeys choices).length

/-- The correctness decision of `RecordAnswer` for `fillblank` (lines
354–378). -/
def isCorrectFillblankRecord (acceptableRows : List String) (commandText : String) : Bool :=
  ContainsString (acceptableRows.map ToLower) (ToLower (TrimSpace commandText))

/-- The number of questions the scoring loop grades correct
(`correctCount` at the end of the loop). -/
def countCorrect (qs : List AnsweredQuestion) : ℕ :=
  (qs.filter (fun aq => (gradeExamQuestion aq.question aq.choiceIds aq.textAnswer).1)).length

/-- From the spec, the correctness condition for `single`/`truefalse`:
the test-taker selected exactly one choice, that choice is the unique
correct one, and no incorrect choice was selected (with a single
selection equal to the unique correct choice, selecting an incorrect
choice is impossible, so the condition reduces to the first two
clauses). -/
def specSingleCorrect (choices : List Choice) (user : List ℤ) : Prop :=
  ∃ c ∈ choices, c.isCorrect = true ∧ (∀ d ∈ choices, d.isCorrect = true → d = c) ∧
    user = [c.id]

/-- From the spec, the correctness condition for `multi`: the set of
selected choice identifiers equals the set of correct choice
identifiers. -/
def specMultiCorrect (choices : List Choice) (user : List ℤ) : Prop :=
  user.toFinset = ((choices.filter (fun c => c.isCorrect)).map (fun c => c.id)).toFinset

/-- A `fillblank` question accepting exactly the answer `"a"`. -/
def fillQ : GQuestion := ⟨"q", "fillblank", "e", "D", [], ["a"]⟩

/-- A ten-question exam of which exactly the first seven are answered
correctly; used to evaluate closed statements about scoring. -/
def exam7of10 : List AnsweredQuestion :=
  List.replicate 7 (⟨fillQ, [], some "a"⟩ : AnsweredQuestion) ++
    List.replicate 3 (⟨fillQ, [], some "b"⟩ : AnsweredQuestion)

end Grading

/-! ## `exam/generator.go`: `UpdateQuestionValidityScores` -/

/-- The data `UpdateQuestionValidityScores` reads: the parsed threshold
setting (default 0.25 when the setting is missing or unparsable), the
completed attempts with their scores as returned by the query (ascending
`score_percent` order), and the per-(attempt, question) correctness
facts computed by the SQL `CASE` expression. -/
structure ValidityEnv where
  threshold : ℚ
  attempts : List (ℤ × ℚ)
  answers : List (ℤ × ℤ × Bool)
deriving Repr

/-- `lowScoringAttemptIDs`: the attempts with index below
`bottom25PercentIndex`. -/
def lowScoringAttemptIDs (attempts : List (ℤ × ℚ)) (bottomIdx : ℤ) : List ℤ :=
  (attempts.enum.filter (fun p => decide ((p.1 : ℤ) < bottomIdx))).map (fun p => p.2.1)

/-- `highScoringAttemptIDs`: all remaining attempts. -/
def highScoringAttemptIDs (attempts : List (ℤ × ℚ)) (bottomIdx : ℤ) : List ℤ :=
  (attempts.enum.filter (fun p => !(decide ((p.1 : ℤ) < bottomIdx)))).map (fun p => p.2.1)

/-- The SQL `UPDATE`'s effect on one question: untouched when the
question has no `user_answers` rows (no `QuestionPerformance` row
matches), otherwise set to
`high_correct/high_count - low_correct/low_count`, which is SQL `NULL`
when either group count is zero (`NULLIF(..., 0)`). -/
def validityFor (answers : List (ℤ × ℤ × Bool)) (highIDs lowIDs : List ℤ)
    (qid : ℤ) (old : Option ℚ) : Option ℚ :=
  let rows := answers.filter (fun r => r.2.1 == qid)
  if rows.isEmpty then old
  else
    let hc := (rows.filter (fun r => r.2.2 && ContainsInt highIDs r.1)).length
    let hn := (rows.filter (fun r => ContainsInt highIDs r.1)).length
    let lc := (rows.filter (fun r => r.2.2 && ContainsInt lowIDs r.1)).length
    let ln := (rows.filter (fun r => ContainsInt lowIDs r.1)).length
    if hn = 0 ∨ ln = 0 then none
    else some (qsub (Rat.divInt (hc : ℤ) (hn : ℤ)) (Rat.divInt (lc : ℤ) (ln : ℤ)))

/-- `exam.UpdateQuestionValidityScores` acting on the stored questions
(identifier, validity score): skip everything when fewer than 10
completed attempts exist, split at
`bottom25PercentIndex = int(float64(numAttempts) * threshold)`, skip when
either group is empty, otherwise apply the `UPDATE`. -/
def UpdateQuestionValidityScores (env : ValidityEnv)
    (questions : List (ℤ × Option ℚ)) : List (ℤ × Option ℚ) :=
  if env.attempts.length < 10 then questions
  else
    let bottomIdx := goTrunc (qmul (env.attempts.length : ℚ) env.threshold)
    let lowIDs := lowScoringAttemptIDs env.attempts bottomIdx
    let highIDs := highScoringAttemptIDs env.attempts bottomIdx
    if lowIDs.isEmpty || highIDs.isEmpty then questions
    else questions.map (fun q => (q.1, validityFor env.answers highIDs lowIDs q.1 q.2))

/-- A validity-scoring environment with only five completed attempts. -/
def envSmall : ValidityEnv :=
  ⟨Rat.divInt 1 4, [(1, 50), (2, 60), (3, 70), (4, 80), (5, 90)], [(1, 101, true)]⟩

/-- A validity-scoring environment with twelve completed attempts and
answers for question 101. -/
def envBig : ValidityEnv :=
  ⟨Rat.divInt 1 4,
   [(1, 10), (2, 20), (3, 30), (4, 40), (5, 50), (6, 60), (7, 70), (8, 80), (9, 85),
    (10, 90), (11, 95), (12, 100)],
   [(1, 101, false), (2, 101, false), (3, 101, true), (5, 101, true), (12, 101, true),
    (11, 101, false)]⟩

end Recap

/-! # Theorems -/

namespace Recap

theorem char_ofNat_toNat_valid (n : ℕ) (h : n.isValidChar) : (Char.ofNat n).toNat = n := by
  rw [Char.ofNat, dif_pos h]
  rfl

theorem char_toLower_eq (c : Char) :
    c.toLower = if c.toNat ≥ 65 ∧ c.toNat ≤ 90 then Char.ofNat (c.toNat + 32) else c := rfl

theorem char_toLower_idem (c : Char) : c.toLower.toLower = c.toLower := by
  by_cases h : c.toNat ≥ 65 ∧ c.toNat ≤ 90
  · have h2 : c.toLower.toNat = c.toNat + 32 := by
      rw [char_toLower_eq c, if_pos h, char_ofNat_toNat_valid _ (Or.inl (by omega))]
    rw [char_toLower_eq c.toLower, if_neg (by omega)]
  · have h1 : c.toLower = c := by rw [char_toLower_eq, if_neg h]
    rw [h1]
    exact h1

theorem toLower_idem (s : String) : ToLower (ToLower s) = ToLower s := by
  rw [ToLower, ToLower]
  congr 1
  rw [List.map_map]
  exact List.map_congr_left (fun c _ => char_toLower_idem c)

theorem submitFold_eq (qs : List Grading.AnsweredQuestion) :
    Grading.submitFold qs =
      (Grading.countCorrect qs,
       qs.map (fun aq => (Grading.gradeExamQuestion aq.question aq.choiceIds aq.textAnswer).2)) := by
  suffices h : ∀ acc : ℕ × List Grading.DetailedQuestionReport,
      qs.foldl (fun acc aq =>
        let g := Grading.gradeExamQuestion aq.question aq.choiceIds aq.textAnswer
        (acc.1 + (if g.1 then 1 else 0), acc.2 ++ [g.2])) acc =
      (acc.1 + Grading.countCorrect qs,
       acc.2 ++ qs.map (fun aq => (Grading.gradeExamQuestion aq.question aq.choiceIds aq.textAnswer).2)) by
    rw [Grading.submitFold, h (0, [])]
    simp
  induction qs with
  | nil =>
    intro acc
    simp [Grading.countCorrect]
  | cons q rest ih =>
    intro acc
    rw [List.foldl_cons, ih]
    simp only [Grading.countCorrect, List.filter_cons, List.map_cons]
    split
    · rw [Prod.mk.injEq]
      exact ⟨by simp; omega, by simp⟩
    · rw [Prod.mk.injEq]
      exact ⟨by simp, by simp⟩

theorem gradeFillblank_iff (raw : List String) (t : String) :
    Grading.gradeFillblankSubmit (Grading.storeAcceptableAnswers raw) (some t) = true ↔
      ToLower (TrimSpace t) ∈ Grading.storeAcceptableAnswers raw := by
  show ContainsString ((Grading.storeAcceptableAnswers raw).map ToLower)
    (ToLower (TrimSpace t)) = true ↔ _
  have hidem : (Grading.storeAcceptableAnswers raw).map ToLower =
      Grading.storeAcceptableAnswers raw := by
    rw [Grading.storeAcceptableAnswers, List.map_map]
    exact List.map_congr_left (fun s _ => toLower_idem s)
  rw [hidem, ContainsString_iff]

/-- C6: a graded `fillblank` answer is correct if and only if the
trimmed, lower-cased submitted text equals one entry of the question's
acceptable-answer set, whose entries were lower-cased at storage time by
ingestion; in particular `"YML"` matches the stored set
`{"yaml","yml"}`, and `"yml "` (trailing space) also matches after
trimming. -/
theorem fillblank_grading_spec (raw : List String) (t : String) :
    (Grading.gradeFillblankSubmit (Grading.storeAcceptableAnswers raw) (some t) = true ↔
      ToLower (TrimSpace t) ∈ Grading.storeAcceptableAnswers raw) ∧
    Grading.gradeFillblankSubmit (Grading.storeAcceptableAnswers ["yaml", "yml"]) (some "YML") = true ∧
    Grading.gradeFillblankSubmit (Grading.storeAcceptableAnswers ["yaml", "yml"]) (some "yml ") = true :=
  ⟨gradeFillblank_iff raw t, by decide, by decide⟩

/-- C9: the submission report has one entry per exam question (grading
never aborts on unanswered questions), a question with no recorded
answer (empty choice array, nil text) is reported as `"skipped"`, and
`"skipped"` is distinct from `"incorrect"`. -/
theorem unanswered_reported_skipped (qs : List Grading.AnsweredQuestion) (ps : ℚ)
    (q : Grading.GQuestion) :
    (Grading.SubmitExamSession qs ps).detailedReport =
      qs.map (fun aq => (Grading.gradeExamQuestion aq.question aq.choiceIds aq.textAnswer).2) ∧
    (Grading.gradeExamQuestion q [] none).2.result = "skipped" ∧
    "skipped" ≠ "incorrect" := by
  refine ⟨?_, ?_, by decide⟩
  · rw [Grading.SubmitExamSession]
    split
    · have h0 : qs = [] := List.length_eq_zero.mp (by assumption)
      subst h0
      rfl
    · simp [submitFold_eq]
  · simp only [Grading.gradeExamQuestion, Grading.yourAnswerTexts, ContainsInt]
    split_ifs <;> simp_all

/-- C5 (amended): for every submitted exam with at least one question
the overall score equals `round(correctCount / totalQuestions * 100)`,
and pass holds if and only if the rounded score is at least the integer
truncation of `passingScore` (Go compares `finalScorePercent >=
int(passingScore)`); with an integral passing score this is exactly the
claimed `score >= passingScore`. -/
theorem score_aggregation_spec (qs : List Grading.AnsweredQuestion) (ps : ℚ)
    (h : qs ≠ []) :
    (Grading.SubmitExamSession qs ps).scorePercent =
      round ((Grading.countCorrect qs : ℚ) / (qs.length : ℚ) * 100) ∧
    ((Grading.SubmitExamSession qs ps).pass = true ↔
      goTrunc ps ≤ (Grading.SubmitExamSession qs ps).scorePercent) := by
  have hlen : ¬ qs.length = 0 := by simpa using h
  rw [Grading.SubmitExamSession, if_neg hlen]
  constructor
  · show goRound (qmul (Rat.divInt ((Grading.submitFold qs).1 : ℤ) (qs.length : ℤ)) 100) = _
    rw [submitFold_eq]
    rw [goRound_eq, qmul_eq, Rat.divInt_eq_div]
    push_cast
    rfl
  · show decide (goTrunc ps ≤ goRound (qmul (Rat.divInt ((Grading.submitFold qs).1 : ℤ)
      (qs.length : ℤ)) 100)) = true ↔ _
    rw [decide_eq_true_eq]

/-- C5, counterexample to the claim as stated: with the reachable
non-integral passing score 70.5 and 7 correct answers out of 10, the
code passes the attempt (it compares the score 70 against
`int(70.5) = 70`) although the rounded score is below `passingScore`. -/
theorem pass_threshold_truncation_counterexample :
    (Grading.SubmitExamSession Grading.exam7of10 (Rat.divInt 141 2)).pass = true ∧
    ¬((Rat.divInt 141 2 : ℚ) ≤
      ((Grading.SubmitExamSession Grading.exam7of10 (Rat.divInt 141 2)).scorePercent : ℚ)) := by
  constructor
  · decide
  · decide

/-- Witness for `score_aggregation_spec`: the 7-of-10 exam scores 70,
passes at passing score 70 and fails at 71. -/
theorem score_aggregation_witness :
    (Grading.exam7of10 ≠ [] ∧
      ((Grading.SubmitExamSession Grading.exam7of10 70).pass = true ↔
        goTrunc 70 ≤ (Grading.SubmitExamSession Grading.exam7of10 70).scorePercent)) ∧
    (Grading.SubmitExamSession Grading.exam7of10 70).scorePercent = 70 ∧
    (Grading.SubmitExamSession Grading.exam7of10 70).pass = true ∧
    (Grading.SubmitExamSession Grading.exam7of10 71).pass = false :=
  ⟨⟨by decide, (score_aggregation_spec Grading.exam7of10 70 (by decide)).2⟩,
    by decide, by decide, by decide⟩

/-- C10: with fewer than 10 completed attempts, or with an empty
low-scoring or high-scoring group, the validity-score computation
returns the stored questions unchanged (and without error). -/
theorem validity_scores_skip_spec (env : ValidityEnv) (questions : List (ℤ × Option ℚ)) :
    (env.attempts.length < 10 →
      UpdateQuestionValidityScores env questions = questions) ∧
    ((lowScoringAttemptIDs env.attempts
        (goTrunc (qmul (env.attempts.length : ℚ) env.threshold)) = [] ∨
      highScoringAttemptIDs env.attempts
        (goTrunc (qmul (env.attempts.length : ℚ) env.threshold)) = []) →
      UpdateQuestionValidityScores env questions = questions) := by
  constructor
  · intro h
    rw [UpdateQuestionValidityScores, if_pos h]
  · intro h
    rw [UpdateQuestionValidityScores]
    split
    · rfl
    · show (if (lowScoringAttemptIDs env.attempts
          (goTrunc (qmul (env.attempts.length : ℚ) env.threshold))).isEmpty ||
          (highScoringAttemptIDs env.attempts
            (goTrunc (qmul (env.attempts.length : ℚ) env.threshold))).isEmpty then questions
        else _) = questions
      rcases h with h | h <;> simp [h]

/-- Witness for `validity_scores_skip_spec`: five completed attempts
leave the stored validity scores untouched. -/
theorem validity_scores_skip_witness :
    envSmall.attempts.length < 10 ∧
    UpdateQuestionValidityScores envSmall [(1, none), (2, some 1)] = [(1, none), (2, some 1)] :=
  ⟨by decide, (validity_scores_skip_spec envSmall [(1, none), (2, some 1)]).1 (by decide)⟩

/-- With enough attempts and both groups populated, the update branch
really recomputes validity scores (high rate 2/3 minus low rate 1/3 for
question 101) and leaves rows without answer data alone. -/
theorem validity_update_example :
    UpdateQuestionValidityScores envBig [(101, none), (102, some 0)] =
      [(101, some (Rat.divInt 1 3)), (102, some 0)] := by
  decide


theorem mapInsert_mem {l : List (String × GoFloat)} {k : String} {v : GoFloat}
    {p : String × GoFloat} (h : p ∈ mapInsert l k v) : p ∈ l ∨ p.2 = v := by
  rw [mapInsert] at h
  split at h
  · rcases List.mem_map.mp h with ⟨q, hq, hqe⟩
    by_cases hk : q.1 == k
    · right
      rw [if_pos hk] at hqe
      rw [← hqe]
    · left
      rw [if_neg hk] at hqe
      rwa [← hqe]
  · rcases List.mem_append.mp h with h | h
    · exact Or.inl h
    · right
      rw [List.mem_singleton.mp h]

theorem mapInsert_keys_of_mem {l : List (String × GoFloat)} {k : String} {v : GoFloat}
    (h : l.any (fun p => p.1 == k) = true) :
    (mapInsert l k v).map Prod.fst = l.map Prod.fst := by
  rw [mapInsert, if_pos h, List.map_map]
  apply List.map_congr_left
  intro p _
  by_cases hk : p.1 == k
  · simp only [Function.comp, if_pos hk]
    exact (beq_iff_eq.mp hk).symm
  · simp only [Function.comp, if_neg hk]

theorem mapInsert_keys_of_not_mem {l : List (String × GoFloat)} {k : String} {v : GoFloat}
    (h : ¬ l.any (fun p => p.1 == k) = true) :
    (mapInsert l k v).map Prod.fst = l.map Prod.fst ++ [k] := by
  rw [mapInsert, if_neg h, List.map_append]
  rfl

theorem mapInsert_keys_nodup {l : List (String × GoFloat)} {k : String} {v : GoFloat}
    (h : (l.map Prod.fst).Nodup) : ((mapInsert l k v).map Prod.fst).Nodup := by
  by_cases hk : l.any (fun p => p.1 == k) = true
  · rwa [mapInsert_keys_of_mem hk]
  · rw [mapInsert_keys_of_not_mem hk]
    rw [List.nodup_append]
    refine ⟨h, List.nodup_singleton k, ?_⟩
    intro a ha hha
    rw [List.mem_singleton.mp hha] at ha
    rcases List.mem_map.mp ha with ⟨p, hp, hpk⟩
    exact hk (List.any_eq_true.mpr ⟨p, hp, beq_iff_eq.mpr hpk⟩)

theorem mapInsert_length {l : List (String × GoFloat)} {k : String} {v : GoFloat} :
    (mapInsert l k v).length = if l.any (fun p => p.1 == k) = true then l.length else l.length + 1 := by
  rw [mapInsert]
  split <;> simp

theorem valSum_append (l : List (String × GoFloat)) (k : String) (v : GoFloat) :
    valSum (l ++ [(k, v)]) = (valSum l).add v := by
  rw [valSum, valSum, List.foldl_append]
  rfl


theorem rangeOK_of_check {v : GoFloat}
    (h : (v.lt (.num 0) || v.gt (.num 1)) = false) : rangeOK v := by
  cases v with
  | nan => exact Or.inl rfl
  | num q =>
    rw [Bool.or_eq_false_iff] at h
    refine Or.inr ⟨q, rfl, ?_, ?_⟩
    · have := h.1
      rw [GoFloat.lt] at this
      simpa [not_lt] using this
    · have := h.2
      rw [GoFloat.gt] at this
      simpa [not_lt] using this

theorem parseWeightPair_ok {pair : String} {w : List (String × GoFloat)} {t : GoFloat}
    {w' : List (String × GoFloat)} {t' : GoFloat}
    (h : parseWeightPair pair w t = .ok (w', t')) :
    ∃ k v, rangeOK v ∧ w' = mapInsert w k v ∧ t' = t.add v := by
  rw [parseWeightPair] at h
  split at h
  · rename_i p1 p2 heq
    dsimp only at h
    split at h
    · exact absurd h (by simp)
    · rename_i weight hw
      split at h
      · exact absurd h (by simp)
      · rename_i hcheck
        have hp := Except.ok.inj h
        rw [Prod.mk.injEq] at hp
        exact ⟨TrimSpace p1, weight, rangeOK_of_check (by simpa using hcheck),
          hp.1.symm, hp.2.symm⟩
  · exact absurd h (by simp)


theorem parseWeightPairs_ok_props (pairs : List String) :
    ∀ (w : List (String × GoFloat)) (t : GoFloat)
      (w' : List (String × GoFloat)) (t' : GoFloat),
      parseWeightPairs pairs w t = .ok (w', t') →
      (∀ p ∈ w', p ∈ w ∨ rangeOK p.2) ∧
      ((w.map Prod.fst).Nodup → (w'.map Prod.fst).Nodup) ∧
      w'.length ≤ w.length + pairs.length ∧
      (w'.length = w.length + pairs.length → t = valSum w → t' = valSum w') := by
  induction pairs with
  | nil =>
    intro w t w' t' h
    rw [parseWeightPairs] at h
    have hp := Except.ok.inj h
    rw [Prod.mk.injEq] at hp
    obtain ⟨hw, ht⟩ := hp
    subst hw
    subst ht
    exact ⟨fun p hp => Or.inl hp, id, by simp, fun _ hts => hts⟩
  | cons pair rest ih =>
    intro w t w' t' h
    rw [parseWeightPairs] at h
    split at h
    · exact absurd h (by simp)
    · rename_i res w1 t1 heq
      obtain ⟨k, v, hrange, hw1, ht1⟩ := parseWeightPair_ok heq
      subst hw1
      subst ht1
      obtain ⟨ih1, ih2, ih3, ih4⟩ := ih (mapInsert w k v) (t.add v) w' t' h
      have hlen1 : (mapInsert w k v).length ≤ w.length + 1 := by
        rw [mapInsert_length]
        split <;> omega
      refine ⟨?_, ?_, ?_, ?_⟩
      · intro p hp
        rcases ih1 p hp with hmem | hr
        · rcases mapInsert_mem hmem with hmem' | hval
          · exact Or.inl hmem'
          · exact Or.inr (hval ▸ hrange)
        · exact Or.inr hr
      · intro hnd
        exact ih2 (mapInsert_keys_nodup hnd)
      · simp only [List.length_cons]
        omega
      · intro hlen ht
        simp only [List.length_cons] at hlen
        have happend : ¬ w.any (fun p => p.1 == k) = true := by
          intro hmem
          have : (mapInsert w k v).length = w.length := by
            rw [mapInsert_length, if_pos hmem]
          omega
        have hw1eq : mapInsert w k v = w ++ [(k, v)] := by
          rw [mapInsert, if_neg happend]
        refine ih4 (by omega) ?_
        rw [hw1eq, valSum_append, ht]

theorem parseWeightPair_error_unparsable {pair d ws : String}
    (hsc : (splitOnChar ':' pair.data).map String.mk = [d, ws])
    (hpf : ParseFloat (TrimSpace ws) = none) :
    ∀ (w : List (String × GoFloat)) (t : GoFloat), ∃ e, parseWeightPair pair w t = .error e := by
  intro w t
  rw [parseWeightPair, hsc]
  dsimp only
  rw [hpf]
  exact ⟨_, rfl⟩

theorem parseWeightPair_error_range {pair d ws : String} {q : ℚ}
    (hsc : (splitOnChar ':' pair.data).map String.mk = [d, ws])
    (hpf : ParseFloat (TrimSpace ws) = some (GoFloat.num q))
    (hq : q < 0 ∨ 1 < q) :
    ∀ (w : List (String × GoFloat)) (t : GoFloat), ∃ e, parseWeightPair pair w t = .error e := by
  intro w t
  rw [parseWeightPair, hsc]
  dsimp only
  rw [hpf]
  dsimp only
  rw [if_pos]
  · exact ⟨_, rfl⟩
  · rw [GoFloat.lt, GoFloat.gt]
    rcases hq with h | h <;> simp [h]

theorem parseWeightPairs_error (pairs : List String) :
    ∀ (w : List (String × GoFloat)) (t : GoFloat) (pair : String),
      pair ∈ pairs →
      (∀ (w' : List (String × GoFloat)) (t' : GoFloat),
        ∃ e, parseWeightPair pair w' t' = .error e) →
      ∃ e, parseWeightPairs pairs w t = .error e := by
  induction pairs with
  | nil =>
    intro _ _ _ h
    cases h
  | cons p rest ih =>
    intro w t pair hmem hbad
    rw [parseWeightPairs]
    rcases List.mem_cons.mp hmem with rfl | hmem
    · obtain ⟨e, he⟩ := hbad w t
      rw [he]
      exact ⟨e, rfl⟩
    · cases hp : parseWeightPair p w t with
      | error e => exact ⟨e, rfl⟩
      | ok wt =>
        obtain ⟨w1, t1⟩ := wt
        exact ih w1 t1 pair hmem hbad

theorem ParseDomainWeights_error_of_pairs {s e : String}
    (h : parseWeightPairs ((splitOnChar '|' s.data).map String.mk) [] (.num 0) = .error e) :
    ParseDomainWeights s = .error e := by
  rw [ParseDomainWeights, h]

/-- C7 (amended): for every input string the parser either errors or
returns a map whose every weight is NaN or a real number in `[0,1]` and
whose domain names are distinct; when no duplicate name collapsed an
entry (the map is as long as the pair list) and the stored weights sum
to a real number, that sum is within 0.01 of 1.0.  The error side is as
originally claimed: a `Name:Weight` pair whose weight fails to parse is
a hard validation failure, so is a parsed real weight outside `[0,1]`,
and a real accumulated sum outside the 0.01 tolerance is rejected with a
message describing the actual sum.  Only duplicate domain names (each
parsed occurrence feeds the validated total while the map keeps the last)
and NaN weights (all IEEE comparisons false) escape the claimed sum and
range validation, as the counterexample shows. -/
theorem parse_domain_weights_spec (s : String) :
    (∀ m, ParseDomainWeights s = .ok m →
      (∀ p ∈ m, p.2 = GoFloat.nan ∨ ∃ q : ℚ, p.2 = GoFloat.num q ∧ 0 ≤ q ∧ q ≤ 1) ∧
      (m.map Prod.fst).Nodup ∧
      (m.length = (splitOnChar '|' s.data).length →
        ∀ total : ℚ, valSum m = GoFloat.num total → |total - 1| ≤ 1 / 100)) ∧
    (∀ pair ∈ (splitOnChar '|' s.data).map String.mk, ∀ d ws : String,
      (splitOnChar ':' pair.data).map String.mk = [d, ws] →
      (ParseFloat (TrimSpace ws) = none → ∃ e, ParseDomainWeights s = .error e) ∧
      (∀ q : ℚ, ParseFloat (TrimSpace ws) = some (GoFloat.num q) → q < 0 ∨ 1 < q →
        ∃ e, ParseDomainWeights s = .error e)) ∧
    (∀ (w : List (String × GoFloat)) (total : ℚ),
      parseWeightPairs ((splitOnChar '|' s.data).map String.mk) [] (.num 0) =
        .ok (w, GoFloat.num total) →
      1 / 100 < |total - 1| →
      ParseDomainWeights s = .error
        ("domain weights do not sum to 1.0 (sum is " ++
          toString (repr (GoFloat.num total)) ++ ")")) := by
  refine ⟨?_, ?_, ?_⟩
  · intro m hok
    rw [ParseDomainWeights] at hok
    split at hok
    · exact absurd hok (by simp)
    · rename_i res weights totalWeight heq
      split at hok
      · exact absurd hok (by simp)
      · rename_i hcheck
        have hm : weights = m := Except.ok.inj hok
        subst hm
        obtain ⟨h1, h2, _, h4⟩ := parseWeightPairs_ok_props _ _ _ _ _ heq
        refine ⟨?_, h2 (by simp), ?_⟩
        · intro p hp
          rcases h1 p hp with hmem | hr
          · exact absurd hmem (List.not_mem_nil p)
          · exact hr
        · intro hlen total hsum
          have htot : totalWeight = GoFloat.num total := by
            rw [h4 (by simpa using hlen) rfl, hsum]
          rw [htot] at hcheck
          have : ((GoFloat.num total).sub (GoFloat.num 1)).abs.gt
              (GoFloat.num (Rat.divInt 1 100)) = false := by
            simpa using hcheck
          rw [GoFloat.sub, GoFloat.abs, GoFloat.gt] at this
          rw [qsub_eq, qabs_eq] at this
          simp only [decide_eq_false_iff_not, not_lt] at this
          calc |total - 1| ≤ Rat.divInt 1 100 := this
            _ = 1 / 100 := by rw [Rat.divInt_eq_div]; norm_num
  · intro pair hpair d ws hsc
    constructor
    · intro hpf
      obtain ⟨e, he⟩ := parseWeightPairs_error _ [] (.num 0) pair hpair
        (parseWeightPair_error_unparsable hsc hpf)
      exact ⟨e, ParseDomainWeights_error_of_pairs he⟩
    · intro q hpf hq
      obtain ⟨e, he⟩ := parseWeightPairs_error _ [] (.num 0) pair hpair
        (parseWeightPair_error_range hsc hpf hq)
      exact ⟨e, ParseDomainWeights_error_of_pairs he⟩
  · intro w total heq hlt
    have hcheck : ((GoFloat.num total).sub (GoFloat.num 1)).abs.gt
        (GoFloat.num (Rat.divInt 1 100)) = true := by
      rw [GoFloat.sub, GoFloat.abs, GoFloat.gt, qsub_eq, qabs_eq]
      simp only [decide_eq_true_eq]
      calc Rat.divInt 1 100 = 1 / 100 := by rw [Rat.divInt_eq_div]; norm_num
        _ < |total - 1| := hlt
    rw [ParseDomainWeights, heq]
    dsimp only
    rw [if_pos hcheck]

/-- C7, counterexample to the claim as stated: `"A:0.5|A:0.5"` is
accepted (the second pair overwrites the first in the map while both
feed the validated running total), yet the returned weights sum to 0.5,
far outside the 0.01 tolerance; and `"A:NaN"` is accepted with a weight
that is not a float in `[0,1]`. -/
theorem parse_domain_weights_counterexample :
    ParseDomainWeights "A:0.5|A:0.5" = .ok [("A", GoFloat.num (Rat.divInt 1 2))] ∧
    valSum [("A", GoFloat.num (Rat.divInt 1 2))] = GoFloat.num (Rat.divInt 1 2) ∧
    ¬(|(Rat.divInt 1 2 : ℚ) - 1| ≤ 1 / 100) ∧
    ParseDomainWeights "A:NaN" = .ok [("A", GoFloat.nan)] ∧
    (∀ q : ℚ, GoFloat.nan ≠ GoFloat.num q) := by
  refine ⟨by decide, by decide, ?_, by decide, fun q h => by cases h⟩
  rw [Rat.divInt_eq_div]
  norm_num
  rw [abs_of_pos] <;> norm_num

/-- Witness for `parse_domain_weights_spec`: the well-formed input
`"A:0.5|B:0.5"` exercises the ok side; `"A:x"` (unparseable weight),
`"A:2.5"` (real weight outside `[0,1]`) and `"A:0.2|B:0.2"` (real sum
0.4, outside the tolerance, named in the error) exercise the three
error conjuncts. -/
theorem parse_domain_weights_witness :
    ParseDomainWeights "A:0.5|B:0.5" =
      .ok [("A", GoFloat.num (Rat.divInt 1 2)), ("B", GoFloat.num (Rat.divInt 1 2))] ∧
    (∀ p ∈ [("A", GoFloat.num (Rat.divInt 1 2)), ("B", GoFloat.num (Rat.divInt 1 2))],
      p.2 = GoFloat.nan ∨ ∃ q : ℚ, p.2 = GoFloat.num q ∧ 0 ≤ q ∧ q ≤ 1) ∧
    (∃ e, ParseDomainWeights "A:x" = .error e) ∧
    (∃ e, ParseDomainWeights "A:2.5" = .error e) ∧
    ParseDomainWeights "A:0.2|B:0.2" = .error
      ("domain weights do not sum to 1.0 (sum is " ++
        toString (repr (GoFloat.num (Rat.divInt 2 5))) ++ ")") := by
  refine ⟨by decide, ((parse_domain_weights_spec "A:0.5|B:0.5").1 _ (by decide)).1,
    ?_, ?_, ?_⟩
  · exact ((parse_domain_weights_spec "A:x").2.1 "A:x" (by decide) "A" "x"
      (by decide)).1 (by decide)
  · exact ((parse_domain_weights_spec "A:2.5").2.1 "A:2.5" (by decide) "A" "2.5"
      (by decide)).2 (Rat.divInt 5 2) (by decide) (Or.inr (by decide))
  · refine (parse_domain_weights_spec "A:0.2|B:0.2").2.2
      [("A", GoFloat.num (Rat.divInt 1 5)), ("B", GoFloat.num (Rat.divInt 1 5))]
      (Rat.divInt 2 5) (by decide) ?_
    rw [Rat.divInt_eq_div]
    have h : ((2 : ℤ) : ℚ) / ((5 : ℤ) : ℚ) - 1 < 0 := by norm_num
    rw [abs_of_neg h]
    norm_num



theorem generationOpsFrom_take_prefix (c : ℤ) (v name : String) (ed : List (List ℤ)) :
    ∀ (i j : ℕ), generationOpsFrom c v name i (ed.take j) <+: generationOpsFrom c v name i ed := by
  induction ed with
  | nil =>
    intro i j
    simp
  | cons qids rest ih =>
    intro i j
    cases j with
    | zero => simp [generationOpsFrom]
    | succ j =>
      rw [List.take_succ_cons, generationOpsFrom, generationOpsFrom]
      obtain ⟨t, ht⟩ := ih (i + 1) j
      exact ⟨t, by rw [List.append_assoc, ht]⟩

theorem applyOps_exams_of_no_clear (ops : List DBOp) :
    ∀ st : ExamStore, (∀ op ∈ ops, op.isClear = false) →
      (applyOps st ops).exams = st.exams ++ examRowsOf ops := by
  induction ops with
  | nil =>
    intro st _
    simp [applyOps, examRowsOf]
  | cons op rest ih =>
    intro st h
    rw [applyOps, List.foldl_cons]
    have hrest : ∀ o ∈ rest, o.isClear = false := fun o ho => h o (List.mem_cons_of_mem _ ho)
    cases op with
    | clearExams a b => exact absurd (h _ (List.mem_cons_self _ _)) (by simp [DBOp.isClear])
    | insertExam r =>
      rw [show List.foldl applyOp (applyOp st (.insertExam r)) rest = applyOps (applyOp st (.insertExam r)) rest from rfl,
        ih _ hrest]
      simp [applyOp, examRowsOf]
    | insertExamQuestion r =>
      rw [show List.foldl applyOp (applyOp st (.insertExamQuestion r)) rest = applyOps (applyOp st (.insertExamQuestion r)) rest from rfl,
        ih _ hrest]
      simp [applyOp, examRowsOf]

theorem generationOpsFrom_no_clear (c : ℤ) (v name : String) (ed : List (List ℤ)) :
    ∀ i : ℕ, ∀ op ∈ generationOpsFrom c v name i ed, op.isClear = false := by
  induction ed with
  | nil =>
    intro i op hop
    simp [generationOpsFrom] at hop
  | cons qids rest ih =>
    intro i op hop
    rw [generationOpsFrom] at hop
    rcases List.mem_append.mp hop with h | h
    · rw [opsForExam] at h
      rcases List.mem_cons.mp h with h | h
      · rw [h]
        rfl
      · rcases List.mem_map.mp h with ⟨p, _, hpe⟩
        rw [← hpe]
        rfl
    · exact ih (i + 1) op h

theorem examRowsOf_generationOpsFrom (c : ℤ) (v name : String) (ed : List (List ℤ)) :
    ∀ i : ℕ, examRowsOf (generationOpsFrom c v name i ed) = examRowsFrom c v name i ed := by
  induction ed with
  | nil =>
    intro i
    rfl
  | cons qids rest ih =>
    intro i
    rw [generationOpsFrom, examRowsFrom, examRowsOf, List.filterMap_append]
    rw [show (opsForExam c v (examTitle name (i : ℤ)) qids).filterMap _ =
      [(⟨c, v, examTitle name (i : ℤ)⟩ : ExamRow)] from ?_]
    · rw [← ih (i + 1)]
      rfl
    · rw [opsForExam, List.filterMap_cons]
      simp [List.filterMap_map, Function.comp]

/-- C8 (amended): regeneration is not one atomic unit of work.  Every
write of `GenerateExamsForCourse` commits on its own, so for every `j`
the statement list that clears the old exams and inserts only the first
`j` new exams is a committed, reachable prefix of the full run; in that
intermediate store the prior exams of the course and bank version are
gone and exactly the first `j` new exams are present — a state that is
neither the old nor the new full exam set whenever the old set was
nonempty and `j` is below the number of generated exams. -/
theorem generation_commit_prefix_spec (st : ExamStore) (c : ℤ) (v name : String)
    (ed : List (List ℤ)) (j : ℕ) :
    generationOps c v name (ed.take j) <+: generationOps c v name ed ∧
    (applyOps st (generationOps c v name (ed.take j))).exams =
      st.exams.filter (fun e => !(e.courseId == c && e.examBankVersion == v)) ++
        examRowsFrom c v name 0 (ed.take j) := by
  constructor
  · rw [generationOps, generationOps]
    exact List.cons_prefix_cons.mpr ⟨rfl, generationOpsFrom_take_prefix c v name ed 0 j⟩
  · rw [generationOps, applyOps, List.foldl_cons]
    rw [show List.foldl applyOp (applyOp st (.clearExams c v)) (generationOpsFrom c v name 0 (ed.take j)) =
      applyOps (applyOp st (.clearExams c v)) (generationOpsFrom c v name 0 (ed.take j)) from rfl]
    rw [applyOps_exams_of_no_clear _ _ (generationOpsFrom_no_clear c v name (ed.take j) 0),
      examRowsOf_generationOpsFrom]
    rfl

/-- C8, counterexample to the claim as stated: a run over two planned
exams that fails after the first exam's inserts (three committed
statements) leaves a store that differs both from the prior store and
from the completed run's store — a reader can observe the mix, and the
failed run has committed a partial replacement. -/
theorem generation_replacement_counterexample :
    applyOps ⟨[⟨1, "v1", "C Practice Exam 1"⟩], [⟨1, "v1", "C Practice Exam 1", 5, 1⟩]⟩
        ((generationOps 1 "v1" "C" [[10], [20]]).take 3) ≠
      ⟨[⟨1, "v1", "C Practice Exam 1"⟩], [⟨1, "v1", "C Practice Exam 1", 5, 1⟩]⟩ ∧
    applyOps ⟨[⟨1, "v1", "C Practice Exam 1"⟩], [⟨1, "v1", "C Practice Exam 1", 5, 1⟩]⟩
        ((generationOps 1 "v1" "C" [[10], [20]]).take 3) ≠
      applyOps ⟨[⟨1, "v1", "C Practice Exam 1"⟩], [⟨1, "v1", "C Practice Exam 1", 5, 1⟩]⟩
        (generationOps 1 "v1" "C" [[10], [20]]) := by
  constructor
  · decide
  · decide



/-- The `BytesToInt` bit-pattern fold agrees with plain base-256
accumulation for byte inputs: at most 8 bytes below 256 never reach the
64-bit wrap-around. -/
theorem bytesFold_be (l : List ℕ) :
    ∀ acc : ℕ, (∀ v ∈ l, v < 256) → l.length ≤ 8 → acc * 256 ^ l.length < 2 ^ 64 →
      l.foldl (fun acc v => ((acc <<< 8) % 2 ^ 64) ||| (v % 256)) acc =
      l.foldl (fun acc v => acc * 256 + v) acc := by
  induction l with
  | nil => intros; rfl
  | cons v rest ih =>
    intro acc hv hlen hacc
    have he : rest.length ≤ 7 := by simpa using hlen
    have hv256 : v < 256 := hv v (List.mem_cons_self v rest)
    have hsplit : (2 : ℕ) ^ 64 = 256 ^ (rest.length + 1) * 256 ^ (7 - rest.length) := by
      rw [← Nat.pow_add]
      have : rest.length + 1 + (7 - rest.length) = 8 := by omega
      rw [this]
      norm_num
    have haccB : acc < 256 ^ (7 - rest.length) := by
      by_contra hc
      push_neg at hc
      have h1 : (2 : ℕ) ^ 64 ≤ acc * 256 ^ (rest.length + 1) := by
        calc (2 : ℕ) ^ 64 = 256 ^ (rest.length + 1) * 256 ^ (7 - rest.length) := hsplit
          _ ≤ 256 ^ (rest.length + 1) * acc := Nat.mul_le_mul_left _ hc
          _ = acc * 256 ^ (rest.length + 1) := Nat.mul_comm _ _
      rw [List.length_cons] at hacc
      exact absurd hacc (not_lt.mpr h1)
    have hstep : acc * 256 + v < 256 ^ (8 - rest.length) := by
      have h1 : acc * 256 + v < (acc + 1) * 256 := by omega
      have h2 : (acc + 1) * 256 ≤ 256 ^ (7 - rest.length) * 256 := Nat.mul_le_mul_right _ haccB
      have h3 : (256 : ℕ) ^ (7 - rest.length) * 256 = 256 ^ (8 - rest.length) := by
        rw [← Nat.pow_succ]
        congr 1
        omega
      omega
    have hnew : (acc * 256 + v) * 256 ^ rest.length < 2 ^ 64 := by
      have h1 : (acc * 256 + v) * 256 ^ rest.length <
          256 ^ (8 - rest.length) * 256 ^ rest.length :=
        (Nat.mul_lt_mul_right (Nat.pos_pow_of_pos _ (by norm_num))).mpr hstep
      have h2 : (256 : ℕ) ^ (8 - rest.length) * 256 ^ rest.length = 2 ^ 64 := by
        rw [← Nat.pow_add]
        have : 8 - rest.length + rest.length = 8 := by omega
        rw [this]
        norm_num
      omega
    have hshift : acc <<< 8 = acc * 256 := by
      rw [Nat.shiftLeft_eq]
    have hmodlt : acc * 256 < 2 ^ 64 := by
      have h1 : acc * 256 ≤ acc * 256 + v := Nat.le_add_right _ _
      have h2 : acc * 256 + v ≤ (acc * 256 + v) * 256 ^ rest.length :=
        Nat.le_mul_of_pos_right _ (Nat.pos_pow_of_pos _ (by norm_num))
      omega
    rw [List.foldl_cons, List.foldl_cons, hshift, Nat.mod_eq_of_lt hmodlt,
      Nat.mod_eq_of_lt hv256]
    rw [show acc * 256 ||| v = acc * 256 + v by
      rw [Nat.mul_comm acc 256]
      rw [show (256 : ℕ) = 2 ^ 8 by norm_num]
      exact (Nat.mul_add_lt_is_or hv256 acc).symm]
    exact ih _ (fun u hu => hv u (List.mem_cons_of_mem _ hu)) (by omega) hnew

/-- `BytesToInt` interprets the first 8 bytes of the hash as a
big-endian integer, reinterpreted as a two's-complement `int64` (values
with the top bit set come out negative but carry the same 64 bits). -/
theorem BytesToInt_big_endian (b : List ℕ) (h : ∀ v ∈ b, v < 256) :
    BytesToInt b =
      if beBytes (b.take 8) < 2 ^ 63 then (beBytes (b.take 8) : ℤ)
      else (beBytes (b.take 8) : ℤ) - 2 ^ 64 := by
  rw [BytesToInt, beBytes]
  rw [bytesFold_be (b.take 8) 0 (fun v hv => h v (List.take_subset _ _ hv))
    (by simp) (by simp)]


/-- C3: the question selection is not a function of the pool and the
derived seed alone: it also depends on the enumeration order of the Go
map `perDomainRequired`, because one seeded generator is threaded
through the `for domain, count := range perDomainRequired` loop.  With
the embedded generator standing in for `math/rand`, the pool
{1A, 2A, 3B, 4B} with quotas A:1, B:1 and seed 7 yields the question set
{2, 3} under the order [A, B] and the disjoint set {4, 1} under the
order [B, A]; since Go randomises map iteration order between runs,
re-running with identical inputs need not reproduce the question sets,
contradicting the claimed (and code-commented) reproducibility. -/
theorem selection_depends_on_quota_order :
    selectQuestionsForExam lcg [⟨1, "A"⟩, ⟨2, "A"⟩, ⟨3, "B"⟩, ⟨4, "B"⟩]
        [("A", 1), ("B", 1)] 7 = .ok [⟨2, "A"⟩, ⟨3, "B"⟩] ∧
    selectQuestionsForExam lcg [⟨1, "A"⟩, ⟨2, "A"⟩, ⟨3, "B"⟩, ⟨4, "B"⟩]
        [("B", 1), ("A", 1)] 7 = .ok [⟨4, "B"⟩, ⟨1, "A"⟩] ∧
    selectQuestionsForExam lcg [⟨1, "A"⟩, ⟨2, "A"⟩, ⟨3, "B"⟩, ⟨4, "B"⟩]
        [("A", 1), ("B", 1)] 7 ≠
      selectQuestionsForExam lcg [⟨1, "A"⟩, ⟨2, "A"⟩, ⟨3, "B"⟩, ⟨4, "B"⟩]
        [("B", 1), ("A", 1)] 7 :=
  ⟨by decide, by decide, by decide⟩


end Recap

namespace Recap
namespace Grading

theorem allUserChoicesCorrect_iff (choices : List Choice) (user : List ℤ) :
    allUserChoicesCorrect choices user = true ↔
      ∀ c ∈ choices, c.isCorrect = true → c.id ∈ user := by
  rw [allUserChoicesCorrect, List.all_eq_true]
  refine forall_congr' (fun c => forall_congr' (fun hc => ?_))
  rw [Bool.or_eq_true, Bool.not_eq_true']
  constructor
  · rintro (h | h)
    · intro hcc
      rw [hcc] at h
      cases h
    · exact fun _ => ContainsInt_iff user c.id |>.mp h
  · intro h
    by_cases hcc : c.isCorrect = true
    · exact Or.inr ((ContainsInt_iff user c.id).mpr (h hcc))
    · exact Or.inl (Bool.not_eq_true _ ▸ eq_false_of_ne_true hcc)

theorem userSelectedAnyIncorrect_iff (choices : List Choice) (user : List ℤ) :
    userSelectedAnyIncorrect choices user = true ↔
      ∃ c ∈ choices, c.isCorrect = false ∧ c.id ∈ user := by
  rw [userSelectedAnyIncorrect, List.any_eq_true]
  refine exists_congr (fun c => and_congr_right (fun _ => ?_))
  rw [Bool.and_eq_true, Bool.not_eq_true']
  exact and_congr_right (fun _ => ContainsInt_iff user c.id)

end Grading
end Recap

namespace Recap
namespace Grading

theorem id_inj {choices : List Choice} (hnd : (choices.map (fun c => c.id)).Nodup)
    {a b : Choice} (ha : a ∈ choices) (hb : b ∈ choices) (hid : a.id = b.id) : a = b :=
  List.inj_on_of_nodup_map hnd ha hb hid

theorem filter_eq_singleton {l : List Choice} {p : Choice → Bool} {c : Choice}
    (hnd : l.Nodup) (hc : c ∈ l) (hpc : p c = true)
    (huniq : ∀ d ∈ l, p d = true → d = c) : l.filter p = [c] := by
  induction l with
  | nil => cases hc
  | cons a rest ih =>
    rw [List.filter_cons]
    rcases List.mem_cons.mp hc with rfl | hc2
    · rw [if_pos hpc]
      have hrest : rest.filter p = [] := by
        rw [List.filter_eq_nil_iff]
        intro d hd hpd
        have hda := huniq d (List.mem_cons_of_mem _ hd) hpd
        subst hda
        exact (List.nodup_cons.mp hnd).1 hd
      rw [hrest]
    · have hpa : ¬ p a = true := by
        intro hpa
        have := huniq a (List.mem_cons_self _ _) hpa
        subst this
        exact (List.nodup_cons.mp hnd).1 hc2
      rw [if_neg hpa]
      exact ih (List.nodup_cons.mp hnd).2 hc2
        (fun d hd hpd => huniq d (List.mem_cons_of_mem _ hd) hpd)

theorem correctKeys_eq {choices : List Choice}
    (hnd : (choices.map (fun c => c.id)).Nodup) :
    correctChoicesMapKeys choices = (choices.filter (fun c => c.isCorrect)).map (fun c => c.id) := by
  rw [correctChoicesMapKeys]
  apply List.dedup_eq_self.mpr
  exact List.Nodup.sublist (List.Sublist.map _ (List.filter_sublist _)) hnd

end Grading
end Recap

namespace Recap
namespace Grading

theorem cc_eq_of_allCorr {choices : List Choice} {user : List ℤ}
    (h : allUserChoicesCorrect choices user = true) :
    userSelectedCorrectCount choices user =
      ((choices.filter (fun c => c.isCorrect)).map (fun c => c.id)).length := by
  rw [userSelectedCorrectCount, List.length_map]
  congr 1
  apply List.filter_congr
  intro c hc
  by_cases hcc : c.isCorrect = true
  · rw [hcc, Bool.true_and]
    exact (ContainsInt_iff user c.id).mpr ((allUserChoicesCorrect_iff choices user).mp h c hc hcc)
  · rw [Bool.not_eq_true] at hcc
    rw [hcc, Bool.false_and]

theorem single_core {choices : List Choice} {user : List ℤ}
    (hnd : (choices.map (fun c => c.id)).Nodup) :
    (allUserChoicesCorrect choices user = true ∧
     userSelectedAnyIncorrect choices user = false ∧
     userSelectedCorrectCount choices user = 1 ∧
     user.length = 1) ↔ specSingleCorrect choices user := by
  constructor
  · rintro ⟨hall, _, hcc, hlen⟩
    obtain ⟨x, hx⟩ := List.length_eq_one.mp hlen
    rw [userSelectedCorrectCount] at hcc
    obtain ⟨c, hfc⟩ := List.length_eq_one.mp hcc
    have hcmem : c ∈ choices.filter (fun c => c.isCorrect && ContainsInt user c.id) := by
      rw [hfc]
      exact List.mem_singleton_self c
    have hcprops := List.mem_filter.mp hcmem
    have hcchoices : c ∈ choices := hcprops.1
    have hccorr : c.isCorrect = true := (Bool.and_eq_true _ _ |>.mp hcprops.2).1
    have hcid : c.id ∈ user := (ContainsInt_iff _ _).mp (Bool.and_eq_true _ _ |>.mp hcprops.2).2
    have hcx : c.id = x := by
      rw [hx] at hcid
      exact List.mem_singleton.mp hcid
    refine ⟨c, hcchoices, hccorr, ?_, by rw [hx, hcx]⟩
    intro d hd hdc
    have hdid : d.id ∈ user := (allUserChoicesCorrect_iff choices user).mp hall d hd hdc
    rw [hx] at hdid
    exact id_inj hnd hd hcchoices (by rw [List.mem_singleton.mp hdid, hcx])
  · rintro ⟨c, hc, hcorr, huniq, hueq⟩
    have hchnd : choices.Nodup := List.Nodup.of_map _ hnd
    refine ⟨?_, ?_, ?_, by rw [hueq]; rfl⟩
    · rw [allUserChoicesCorrect_iff]
      intro d hd hdc
      rw [huniq d hd hdc, hueq]
      exact List.mem_singleton_self _
    · rw [← Bool.not_eq_true, userSelectedAnyIncorrect_iff]
      rintro ⟨d, hd, hdinc, hdid⟩
      rw [hueq] at hdid
      have := id_inj hnd hd hc (List.mem_singleton.mp hdid)
      subst this
      rw [hcorr] at hdinc
      cases hdinc
    · rw [userSelectedCorrectCount]
      rw [filter_eq_singleton hchnd hc ?_ ?_]
      · rfl
      · rw [hcorr, Bool.true_and, hueq]
        exact (ContainsInt_iff _ _).mpr (List.mem_singleton_self _)
      · intro d hd hpd
        exact huniq d hd (Bool.and_eq_true _ _ |>.mp hpd).1

end Grading
end Recap

namespace Recap
namespace Grading

theorem record_single_core {choices : List Choice} {user : List ℤ}
    (hnd : (choices.map (fun c => c.id)).Nodup) :
    (allUserChoicesCorrect choices user = true ∧
     userSelectedAnyIncorrect choices user = false ∧
     user.length = 1 ∧
     (correctChoicesMapKeys choices).length = 1) ↔ specSingleCorrect choices user := by
  constructor
  · rintro ⟨hall, _, hlen, hkeys⟩
    obtain ⟨x, hx⟩ := List.length_eq_one.mp hlen
    rw [correctKeys_eq hnd, List.length_map] at hkeys
    obtain ⟨c, hfc⟩ := List.length_eq_one.mp hkeys
    have hcmem : c ∈ choices.filter (fun c => c.isCorrect) := by
      rw [hfc]
      exact List.mem_singleton_self c
    have hcprops := List.mem_filter.mp hcmem
    have hcid : c.id ∈ user :=
      (allUserChoicesCorrect_iff choices user).mp hall c hcprops.1 hcprops.2
    have hcx : c.id = x := by
      rw [hx] at hcid
      exact List.mem_singleton.mp hcid
    refine ⟨c, hcprops.1, hcprops.2, ?_, by rw [hx, hcx]⟩
    intro d hd hdc
    have : d ∈ choices.filter (fun c => c.isCorrect) := List.mem_filter.mpr ⟨hd, hdc⟩
    rw [hfc] at this
    exact List.mem_singleton.mp this
  · rintro ⟨c, hc, hcorr, huniq, hueq⟩
    have hchnd : choices.Nodup := List.Nodup.of_map _ hnd
    refine ⟨?_, ?_, by rw [hueq]; rfl, ?_⟩
    · rw [allUserChoicesCorrect_iff]
      intro d hd hdc
      rw [huniq d hd hdc, hueq]
      exact List.mem_singleton_self _
    · rw [← Bool.not_eq_true, userSelectedAnyIncorrect_iff]
      rintro ⟨d, hd, hdinc, hdid⟩
      rw [hueq] at hdid
      have := id_inj hnd hd hc (List.mem_singleton.mp hdid)
      subst this
      rw [hcorr] at hdinc
      cases hdinc
    · rw [correctKeys_eq hnd, List.length_map,
        filter_eq_singleton hchnd hc hcorr (fun d hd hpd => huniq d hd hpd)]
      rfl

theorem multi_core {choices : List Choice} {user : List ℤ}
    (hnd : (choices.map (fun c => c.id)).Nodup) (hu : user.Nodup) :
    (allUserChoicesCorrect choices user = true ∧
     userSelectedAnyIncorrect choices user = false ∧
     user.length = ((choices.filter (fun c => c.isCorrect)).map (fun c => c.id)).length) ↔
    specMultiCorrect choices user := by
  have hcnd : ((choices.filter (fun c => c.isCorrect)).map (fun c => c.id)).Nodup :=
    List.Nodup.sublist (List.Sublist.map _ (List.filter_sublist _)) hnd
  constructor
  · rintro ⟨hall, _, hlen⟩
    have hsub : ((choices.filter (fun c => c.isCorrect)).map (fun c => c.id)).toFinset ⊆
        user.toFinset := by
      intro x hx
      rw [List.mem_toFinset] at hx
      obtain ⟨c, hcf, rfl⟩ := List.mem_map.mp hx
      have hcp := List.mem_filter.mp hcf
      rw [List.mem_toFinset]
      exact (allUserChoicesCorrect_iff choices user).mp hall c hcp.1 hcp.2
    have hcards : user.toFinset.card ≤
        ((choices.filter (fun c => c.isCorrect)).map (fun c => c.id)).toFinset.card := by
      rw [List.toFinset_card_of_nodup hu, List.toFinset_card_of_nodup hcnd, hlen]
    exact (Finset.eq_of_subset_of_card_le hsub hcards).symm
  · intro hset
    rw [specMultiCorrect] at hset
    refine ⟨?_, ?_, ?_⟩
    · rw [allUserChoicesCorrect_iff]
      intro c hc hcc
      have : c.id ∈ user.toFinset := by
        rw [hset, List.mem_toFinset]
        exact List.mem_map.mpr ⟨c, List.mem_filter.mpr ⟨hc, hcc⟩, rfl⟩
      exact List.mem_toFinset.mp this
    · rw [← Bool.not_eq_true, userSelectedAnyIncorrect_iff]
      rintro ⟨d, hd, hdinc, hdid⟩
      have : d.id ∈ ((choices.filter (fun c => c.isCorrect)).map (fun c => c.id)).toFinset := by
        rw [← hset, List.mem_toFinset]
        exact hdid
      rw [List.mem_toFinset] at this
      obtain ⟨c, hcf, hcd⟩ := List.mem_map.mp this
      have hcp := List.mem_filter.mp hcf
      have := id_inj hnd hd hcp.1 hcd.symm
      subst this
      rw [hcp.2] at hdinc
      cases hdinc
    · rw [← List.toFinset_card_of_nodup hu, ← List.toFinset_card_of_nodup hcnd, hset]

end Grading
end Recap

namespace Recap
namespace Grading

theorem submit_single_bool (qType : String) (choices : List Choice) (user : List ℤ)
    (hq : qType = "single" ∨ qType = "truefalse") :
    isCorrectChoiceSubmit qType choices user =
      (allUserChoicesCorrect choices user && !userSelectedAnyIncorrect choices user &&
        (userSelectedCorrectCount choices user == 1) && (user.length == 1)) := by
  rw [isCorrectChoiceSubmit, if_pos]
  rcases hq with h | h <;> simp [h]

theorem submit_multi_bool (choices : List Choice) (user : List ℤ) :
    isCorrectChoiceSubmit "multi" choices user =
      (allUserChoicesCorrect choices user && !userSelectedAnyIncorrect choices user &&
        (userSelectedCorrectCount choices user == (correctChoicesMapKeys choices).length) &&
        (user.length == (correctChoicesMapKeys choices).length)) := by
  rw [isCorrectChoiceSubmit, if_neg (by decide), if_pos (by decide)]

theorem record_single_bool (qType : String) (choices : List Choice) (user : List ℤ)
    (hq : qType = "single" ∨ qType = "truefalse") :
    isCorrectChoiceRecord qType choices user =
      (allUserChoicesCorrect choices user && !userSelectedAnyIncorrect choices user &&
        (user.length == 1) && ((correctChoicesMapKeys choices).length == 1)) := by
  rw [isCorrectChoiceRecord, if_pos]
  rcases hq with h | h <;> simp [h]

theorem record_multi_bool (choices : List Choice) (user : List ℤ) :
    isCorrectChoiceRecord "multi" choices user =
      (allUserChoicesCorrect choices user && !userSelectedAnyIncorrect choices user &&
        (user.length == (correctChoicesMapKeys choices).length)) := by
  rw [isCorrectChoiceRecord, if_neg (by decide)]

theorem multi_nodup_of_correct {choices : List Choice} {user : List ℤ}
    (hnd : (choices.map (fun c => c.id)).Nodup)
    (hall : allUserChoicesCorrect choices user = true)
    (hlen : user.length =
      ((choices.filter (fun c => c.isCorrect)).map (fun c => c.id)).length) :
    user.Nodup := by
  have hcnd : ((choices.filter (fun c => c.isCorrect)).map (fun c => c.id)).Nodup :=
    List.Nodup.sublist (List.Sublist.map _ (List.filter_sublist _)) hnd
  have hsub : ((choices.filter (fun c => c.isCorrect)).map (fun c => c.id)).toFinset ⊆
      user.toFinset := by
    intro x hx
    rw [List.mem_toFinset] at hx
    obtain ⟨c, hcf, rfl⟩ := List.mem_map.mp hx
    have hcp := List.mem_filter.mp hcf
    rw [List.mem_toFinset]
    exact (allUserChoicesCorrect_iff choices user).mp hall c hcp.1 hcp.2
  have h1 : ((choices.filter (fun c => c.isCorrect)).map (fun c => c.id)).length ≤
      user.toFinset.card := by
    rw [← List.toFinset_card_of_nodup hcnd]
    exact Finset.card_le_card hsub
  have h3 : user.toFinset.card = user.length :=
    le_antisymm (List.toFinset_card_le user) (hlen ▸ h1)
  have h4 : user.dedup.length = user.length := by
    rw [← List.card_toFinset]
    exact h3
  have h5 : user.dedup = user := (List.dedup_sublist user).eq_of_length h4
  rw [← h5]
  exact List.nodup_dedup user

end Grading

/-- C4 (amended): for choice rows with pairwise-distinct identifiers (a
database key invariant), a `single` or `truefalse` question — graded in
`SubmitExamSession` or in practice-mode `RecordAnswer` — is correct if
and only if the test-taker selected exactly one choice, that choice is
the unique correct one, and no incorrect choice was selected; and a
`multi` question is correct if and only if the selected identifier list
is duplicate-free and its set equals the set of correct choice
identifiers, so any strict subset or superset — and any selection
repeating an identifier, which both endpoints accept unvalidated — is
graded incorrect even when the identifier sets coincide (see the
counterexample). -/
theorem choice_grading_spec (choices : List Grading.Choice) (user : List ℤ)
    (hnd : (choices.map (fun c => c.id)).Nodup) :
    (Grading.isCorrectChoiceSubmit "single" choices user = true ↔
      Grading.specSingleCorrect choices user) ∧
    (Grading.isCorrectChoiceSubmit "truefalse" choices user = true ↔
      Grading.specSingleCorrect choices user) ∧
    (Grading.isCorrectChoiceRecord "single" choices user = true ↔
      Grading.specSingleCorrect choices user) ∧
    (Grading.isCorrectChoiceRecord "truefalse" choices user = true ↔
      Grading.specSingleCorrect choices user) ∧
    (Grading.isCorrectChoiceSubmit "multi" choices user = true ↔
      Grading.specMultiCorrect choices user ∧ user.Nodup) ∧
    (Grading.isCorrectChoiceRecord "multi" choices user = true ↔
      Grading.specMultiCorrect choices user ∧ user.Nodup) := by
  have hsing : ∀ qType, qType = "single" ∨ qType = "truefalse" →
      (Grading.isCorrectChoiceSubmit qType choices user = true ↔
        Grading.specSingleCorrect choices user) := by
    intro qType hq
    rw [Grading.submit_single_bool qType choices user hq, ← Grading.single_core hnd]
    simp [Bool.and_eq_true, Bool.not_eq_true', and_assoc]
  have hrec : ∀ qType, qType = "single" ∨ qType = "truefalse" →
      (Grading.isCorrectChoiceRecord qType choices user = true ↔
        Grading.specSingleCorrect choices user) := by
    intro qType hq
    rw [Grading.record_single_bool qType choices user hq, ← Grading.record_single_core hnd]
    simp [Bool.and_eq_true, Bool.not_eq_true', and_assoc]
  refine ⟨hsing _ (Or.inl rfl), hsing _ (Or.inr rfl), hrec _ (Or.inl rfl),
    hrec _ (Or.inr rfl), ?_, ?_⟩
  · rw [Grading.submit_multi_bool, Grading.correctKeys_eq hnd]
    simp only [Bool.and_eq_true, Bool.not_eq_true', beq_iff_eq, and_assoc]
    constructor
    · rintro ⟨h1, h2, _, h4⟩
      have hu := Grading.multi_nodup_of_correct hnd h1 h4
      exact ⟨(Grading.multi_core hnd hu).mp ⟨h1, h2, h4⟩, hu⟩
    · rintro ⟨hspec, hu⟩
      obtain ⟨h1, h2, h4⟩ := (Grading.multi_core hnd hu).mpr hspec
      exact ⟨h1, h2, Grading.cc_eq_of_allCorr h1, h4⟩
  · rw [Grading.record_multi_bool, Grading.correctKeys_eq hnd]
    simp only [Bool.and_eq_true, Bool.not_eq_true', beq_iff_eq, and_assoc]
    constructor
    · rintro ⟨h1, h2, h4⟩
      have hu := Grading.multi_nodup_of_correct hnd h1 h4
      exact ⟨(Grading.multi_core hnd hu).mp ⟨h1, h2, h4⟩, hu⟩
    · rintro ⟨hspec, hu⟩
      exact (Grading.multi_core hnd hu).mpr hspec

/-- Witness for `choice_grading_spec` on a two-choice question: the
unique correct selection grades correct, and supersets grade
incorrect. -/
theorem choice_grading_witness :
    ((([⟨1, "a", true⟩, ⟨2, "b", false⟩] : List Grading.Choice).map (fun c => c.id)).Nodup ∧
      (Grading.isCorrectChoiceSubmit "single" [⟨1, "a", true⟩, ⟨2, "b", false⟩] [1] = true ↔
        Grading.specSingleCorrect [⟨1, "a", true⟩, ⟨2, "b", false⟩] [1])) ∧
    Grading.isCorrectChoiceSubmit "single" [⟨1, "a", true⟩, ⟨2, "b", false⟩] [1] = true ∧
    Grading.isCorrectChoiceSubmit "single" [⟨1, "a", true⟩, ⟨2, "b", false⟩] [1, 2] = false ∧
    Grading.isCorrectChoiceSubmit "multi" [⟨1, "a", true⟩, ⟨2, "b", false⟩] [1, 2] = false ∧
    Grading.isCorrectChoiceRecord "multi" [⟨1, "a", true⟩, ⟨2, "b", false⟩] [1] = true :=
  ⟨⟨by decide, (choice_grading_spec [⟨1, "a", true⟩, ⟨2, "b", false⟩] [1] (by decide)).1⟩,
    by decide, by decide, by decide, by decide⟩

/-- C4, counterexample to the claim as stated: `RecordAnswer` binds
`choice_ids` from the request body with no deduplication, so the
duplicated selection `[1, 1]` reaches grading; against the correct set
`{1}` the set of selected identifiers equals the set of correct
identifiers, yet both grading sites return incorrect, because the raw
selection length (2) is compared with the number of correct choices
(1). -/
theorem choice_grading_counterexample :
    Grading.specMultiCorrect [⟨1, "a", true⟩, ⟨2, "b", false⟩] [1, 1] ∧
    Grading.isCorrectChoiceSubmit "multi" [⟨1, "a", true⟩, ⟨2, "b", false⟩] [1, 1] = false ∧
    Grading.isCorrectChoiceRecord "multi" [⟨1, "a", true⟩, ⟨2, "b", false⟩] [1, 1] = false :=
  ⟨by rw [Grading.specMultiCorrect]; decide, by decide, by decide⟩

end Recap

namespace Recap

theorem set_cons_perm {α : Type _} :
    ∀ (t : List α) (k : ℕ) (b x : α), t[k]? = some b → (b :: t.set k x).Perm (x :: t) := by
  intro t
  induction t with
  | nil =>
    intro k b x h
    simp at h
  | cons y t ih =>
    intro k b x h
    cases k with
    | zero =>
      rw [List.getElem?_cons_zero] at h
      obtain rfl := Option.some.inj h
      rw [List.set_cons_zero]
      exact List.Perm.swap _ _ _
    | succ k =>
      rw [List.getElem?_cons_succ] at h
      rw [List.set_cons_succ]
      refine List.Perm.trans (List.Perm.swap y b (t.set k x)) ?_
      refine List.Perm.trans (List.Perm.cons y (ih k b x h)) ?_
      exact List.Perm.swap x y t

theorem swapList_perm {α : Type _} : ∀ (l : List α) (i j : ℕ), (swapList l i j).Perm l := by
  intro l
  induction l with
  | nil =>
    intro i j
    rw [swapList]
    simp
  | cons x t ih =>
    intro i j
    cases i with
    | zero =>
      cases j with
      | zero =>
        rw [swapList]
        simp
      | succ k =>
        rw [swapList]
        cases hk : t[k]? with
        | none => simp [hk]
        | some b =>
          simp only [List.getElem?_cons_zero, List.getElem?_cons_succ, hk]
          rw [List.set_cons_zero, List.set_cons_succ]
          exact set_cons_perm t k b x hk
    | succ m =>
      cases j with
      | zero =>
        rw [swapList]
        cases hm : t[m]? with
        | none => simp [hm]
        | some a =>
          simp only [List.getElem?_cons_succ, List.getElem?_cons_zero, hm]
          rw [List.set_cons_succ, List.set_cons_zero]
          exact set_cons_perm t m a x hm
      | succ k =>
        have hstep : swapList (x :: t) (m + 1) (k + 1) = x :: swapList t m k := by
          rw [swapList, swapList]
          simp only [List.getElem?_cons_succ]
          cases hm : t[m]? with
          | none => simp [hm]
          | some a =>
            cases hk : t[k]? with
            | none => simp [hm, hk]
            | some b => simp [hm, hk, List.set_cons_succ]
        rw [hstep]
        exact List.Perm.cons x (ih m k)

end Recap

namespace Recap

theorem shuffle_fold_perm {σ : Type} {α : Type _} (g : RNG σ) :
    ∀ (idxs : List ℕ) (p : List α × σ), ((idxs.foldl (shuffleStep g) p).1).Perm p.1 := by
  intro idxs
  induction idxs with
  | nil => intro p; exact List.Perm.refl _
  | cons i rest ih =>
    intro p
    rw [List.foldl_cons]
    refine (ih (shuffleStep g p i)).trans ?_
    rcases p with ⟨l, s⟩
    show (swapList l i (g.randn s (i + 1)).1).Perm l
    exact swapList_perm l i _

theorem shuffle_perm {σ : Type} {α : Type _} (g : RNG σ) (l : List α) (s : σ) :
    ((shuffle g l s).1).Perm l :=
  shuffle_fold_perm g _ (l, s)

theorem shuffle_length {σ : Type} {α : Type _} (g : RNG σ) (l : List α) (s : σ) :
    (shuffle g l s).1.length = l.length :=
  (shuffle_perm g l s).length_eq

end Recap

namespace Recap

theorem selectLoop_ok_props {σ : Type} (g : RNG σ) (allQ : List Question)
    (hnd : (allQ.map (fun q => q.id)).Nodup) :
    ∀ (quotas : List (String × ℤ)) (used : List ℤ) (s : σ) (sel : List Question),
      selectLoop g allQ quotas used s = .ok sel →
      (∀ q ∈ sel, q ∈ allQ ∧ q.domain ∈ quotas.map Prod.fst ∧ q.id ∉ used) ∧
      (sel.map (fun q => q.id)).Nodup ∧
      ((quotas.map Prod.fst).Nodup →
        ∀ p ∈ quotas, (sel.filter (fun q => q.domain == p.1)).length = p.2.toNat) := by
  intro quotas
  induction quotas with
  | nil =>
    intro used s sel h
    rw [selectLoop] at h
    obtain rfl : ([] : List Question) = sel := Except.ok.inj h
    exact ⟨fun q hq => absurd hq (List.not_mem_nil q), List.nodup_nil,
      fun _ p hp => absurd hp (List.not_mem_nil p)⟩
  | cons pair rest ih =>
    rcases pair with ⟨d, count⟩
    intro used s sel h
    rw [selectLoop] at h
    dsimp only at h
    split at h
    · exact absurd h (by simp)
    · rename_i hlen
      split at h
      · exact absurd h (by simp)
      · rename_i restSel hrest
        obtain rfl := Except.ok.inj h
        -- abbreviations
        set filtered := (questionsByDomain allQ d).filter
          (fun q => !(ContainsInt used q.id)) with hfiltered
        set shuffled := shuffle g filtered s with hshuffled
        set chosen := shuffled.1.take count.toNat with hchosen
        have hperm : shuffled.1.Perm filtered := shuffle_perm g filtered s
        have hchmem : ∀ q ∈ chosen, q ∈ allQ ∧ q.domain = d ∧ q.id ∉ used := by
          intro q hq
          have hq1 : q ∈ shuffled.1 := List.mem_of_mem_take hq
          have hq2 : q ∈ filtered := hperm.mem_iff.mp hq1
          rw [hfiltered] at hq2
          have hq3 := List.mem_filter.mp hq2
          have hq4 := List.mem_filter.mp hq3.1
          refine ⟨hq4.1, by simpa using hq4.2, ?_⟩
          have := hq3.2
          simp only [Bool.not_eq_true'] at this
          intro hmem
          rw [show ContainsInt used q.id = true from (ContainsInt_iff _ _).mpr hmem] at this
          cases this
        have hchids : (chosen.map (fun q => q.id)).Nodup := by
          have hfilt_nd : (filtered.map (fun q => q.id)).Nodup := by
            refine List.Nodup.sublist ?_ hnd
            rw [hfiltered]
            exact List.Sublist.map _ ((List.filter_sublist _).trans (List.filter_sublist _))
          have hshuf_nd : (shuffled.1.map (fun q => q.id)).Nodup :=
            ((hperm.map (fun q => q.id)).nodup_iff).mpr hfilt_nd
          exact List.Nodup.sublist (List.Sublist.map _ (List.take_sublist _ _)) hshuf_nd
        obtain ⟨ihmem, ihnd, ihcount⟩ := ih _ _ _ hrest
        refine ⟨?_, ?_, ?_⟩
        · intro q hq
          rcases List.mem_append.mp hq with hq | hq
          · obtain ⟨h1, h2, h3⟩ := hchmem q hq
            exact ⟨h1, by rw [List.map_cons, h2]; exact List.mem_cons_self _ _, h3⟩
          · obtain ⟨h1, h2, h3⟩ := ihmem q hq
            refine ⟨h1, List.mem_cons_of_mem _ h2, fun hmem => h3 (List.mem_append_left _ hmem)⟩
        · rw [List.map_append, List.nodup_append]
          refine ⟨hchids, ihnd, ?_⟩
          intro x hx hx2
          rcases List.mem_map.mp hx2 with ⟨q, hq, rfl⟩
          exact (ihmem q hq).2.2 (List.mem_append_right _ hx)
        · intro hkeys p hp
          rw [List.map_cons] at hkeys
          have hkeys' := List.nodup_cons.mp hkeys
          have hchlen : chosen.length = count.toNat := by
            rw [hchosen, List.length_take]
            have h1 : count ≤ (shuffled.1.length : ℤ) := not_lt.mp hlen
            have h2 : count.toNat ≤ shuffled.1.length := by
              rcases Int.le_total 0 count with hc | hc
              · exact_mod_cast Int.toNat_le.mpr h1
              · rw [Int.toNat_of_nonpos hc]
                exact Nat.zero_le _
            omega
          rcases List.mem_cons.mp hp with hpd | hp
          · subst hpd
            dsimp only
            rw [List.filter_append]
            have hch : chosen.filter (fun q => q.domain == d) = chosen := by
              apply List.filter_eq_self.mpr
              intro q hq
              rw [(hchmem q hq).2.1]
              exact beq_self_eq_true _
            have hrest0 : restSel.filter (fun q => q.domain == d) = [] := by
              apply List.filter_eq_nil_iff.mpr
              intro q hq
              have h2 := (ihmem q hq).2.1
              intro hbeq
              rw [beq_iff_eq] at hbeq
              rw [hbeq] at h2
              exact hkeys'.1 h2
            rw [hch, hrest0, List.length_append, List.length_nil, hchlen]
            omega
          · rw [List.filter_append]
            have hch0 : chosen.filter (fun q => q.domain == p.1) = [] := by
              apply List.filter_eq_nil_iff.mpr
              intro q hq
              rw [(hchmem q hq).2.1]
              intro hbeq
              rw [beq_iff_eq] at hbeq
              apply hkeys'.1
              rw [hbeq]
              exact List.mem_map.mpr ⟨p, hp, rfl⟩
            rw [hch0, List.nil_append]
            exact ihcount hkeys'.2 p hp
end Recap

namespace Recap

theorem selectLoop_error_props {σ : Type} (g : RNG σ) (allQ : List Question) :
    ∀ (quotas : List (String × ℤ)) (used : List ℤ) (s : σ) (e : String),
      selectLoop g allQ quotas used s = .error e →
      ∃ (d : String) (req : ℤ) (avail : ℕ), (d, req) ∈ quotas ∧ (avail : ℤ) < req ∧
        e = notEnoughMsg d avail req := by
  intro quotas
  induction quotas with
  | nil =>
    intro used s e h
    rw [selectLoop] at h
    exact absurd h (by simp)
  | cons pair rest ih =>
    rcases pair with ⟨d, count⟩
    intro used s e h
    rw [selectLoop] at h
    dsimp only at h
    split at h
    · rename_i hlen
      refine ⟨d, count, _, List.mem_cons_self _ _, hlen, (Except.error.inj h).symm⟩
    · split at h
      · rename_i e2 herr
        obtain rfl : e2 = e := Except.error.inj h
        obtain ⟨d2, req2, avail2, hmem, hlt, heq⟩ := ih _ _ _ herr
        exact ⟨d2, req2, avail2, List.mem_cons_of_mem _ hmem, hlt, heq⟩
      · exact absurd h (by simp)

theorem selectLoop_infeasible_error {σ : Type} (g : RNG σ) (allQ : List Question) :
    ∀ (quotas : List (String × ℤ)) (used : List ℤ) (s : σ),
      (∃ p ∈ quotas, ((questionsByDomain allQ p.1).length : ℤ) < p.2) →
      ∃ e, selectLoop g allQ quotas used s = .error e := by
  intro quotas
  induction quotas with
  | nil =>
    intro used s h
    obtain ⟨p, hp, _⟩ := h
    exact absurd hp (List.not_mem_nil p)
  | cons pair rest ih =>
    rcases pair with ⟨d, count⟩
    intro used s h
    rw [selectLoop]
    dsimp only
    split
    · exact ⟨_, rfl⟩
    · rename_i hlen
      have hwit : ∃ p ∈ rest, ((questionsByDomain allQ p.1).length : ℤ) < p.2 := by
        obtain ⟨p, hp, hlt⟩ := h
        rcases List.mem_cons.mp hp with hpd | hp2
        · exfalso
          subst hpd
          dsimp only at hlt
          have h1 : ((shuffle g ((questionsByDomain allQ d).filter
              (fun q => !(ContainsInt used q.id))) s).1.length : ℤ) ≤
              ((questionsByDomain allQ d).length : ℤ) := by
            rw [shuffle_length]
            exact_mod_cast List.length_filter_le _ _
          omega
        · exact ⟨p, hp2, hlt⟩
      obtain ⟨e, he⟩ := ih _ _ hwit
      rw [he]
      exact ⟨e, rfl⟩

end Recap

namespace Recap

/-- C2: over a pool with pairwise-distinct question identifiers
(database primary keys) and a quota map with distinct domain names (a Go
map), and for every pseudo-random generator: a successful selection
contains no question identifier twice and draws from each domain exactly
the plan's quota for that domain; a failed selection returns exactly
the message naming a quota's domain with the available and required
counts, where available was short of required; and a domain whose whole
pool supply is below its quota always forces a failure. -/
theorem selectQuestionsForExam_spec {σ : Type} (g : RNG σ) (allQ : List Question)
    (quotas : List (String × ℤ)) (seed : ℤ)
    (hnd : (allQ.map (fun q => q.id)).Nodup)
    (hkeys : (quotas.map Prod.fst).Nodup) :
    (∀ sel, selectQuestionsForExam g allQ quotas seed = .ok sel →
      (sel.map (fun q => q.id)).Nodup ∧
      ∀ p ∈ quotas, (sel.filter (fun q => q.domain == p.1)).length = p.2.toNat) ∧
    (∀ e, selectQuestionsForExam g allQ quotas seed = .error e →
      ∃ (d : String) (req : ℤ) (avail : ℕ), (d, req) ∈ quotas ∧ (avail : ℤ) < req ∧
        e = notEnoughMsg d avail req) ∧
    ((∃ p ∈ quotas, ((questionsByDomain allQ p.1).length : ℤ) < p.2) →
      ∃ e, selectQuestionsForExam g allQ quotas seed = .error e) := by
  refine ⟨?_, ?_, ?_⟩
  · intro sel h
    obtain ⟨_, hnd2, hcount⟩ := selectLoop_ok_props g allQ hnd quotas [] (g.init seed) sel h
    exact ⟨hnd2, hcount hkeys⟩
  · intro e h
    exact selectLoop_error_props g allQ quotas [] (g.init seed) e h
  · intro h
    exact selectLoop_infeasible_error g allQ quotas [] (g.init seed) h

/-- Witness for `selectQuestionsForExam_spec` on the four-question
pool: quotas A:1,B:1 succeed (with distinct ids and exact per-domain
counts), and quota A:3 fails naming domain A with available 2 and
required 3. -/
theorem selectQuestionsForExam_witness :
    selectQuestionsForExam lcg [⟨1, "A"⟩, ⟨2, "A"⟩, ⟨3, "B"⟩, ⟨4, "B"⟩]
      [("A", 1), ("B", 1)] 7 = .ok [⟨2, "A"⟩, ⟨3, "B"⟩] ∧
    selectQuestionsForExam lcg [⟨1, "A"⟩, ⟨2, "A"⟩, ⟨3, "B"⟩, ⟨4, "B"⟩]
      [("A", 3), ("B", 1)] 3 = .error (notEnoughMsg "A" 2 3) ∧
    (∀ sel, selectQuestionsForExam lcg [⟨1, "A"⟩, ⟨2, "A"⟩, ⟨3, "B"⟩, ⟨4, "B"⟩]
        [("A", 1), ("B", 1)] 7 = .ok sel →
      (sel.map (fun q => q.id)).Nodup ∧
      ∀ p ∈ [("A", (1 : ℤ)), ("B", 1)],
        (sel.filter (fun q => q.domain == p.1)).length = p.2.toNat) :=
  ⟨by decide, by decide,
    (selectQuestionsForExam_spec lcg [⟨1, "A"⟩, ⟨2, "A"⟩, ⟨3, "B"⟩, ⟨4, "B"⟩]
      [("A", 1), ("B", 1)] 7 (by decide) (by decide)).1⟩

end Recap
namespace Recap

theorem list_sum_map_add {α : Type _} (l : List α) (f g : α → ℤ) :
    (l.map (fun x => f x + g x)).sum = (l.map f).sum + (l.map g).sum := by
  induction l with
  | nil => simp
  | cons a t ih =>
    simp only [List.map_cons, List.sum_cons, ih]
    ring

theorem mem_intRange {lo hi x : ℤ} : x ∈ intRange lo hi ↔ lo ≤ x ∧ x ≤ hi := by
  rw [intRange]
  constructor
  · intro hx
    obtain ⟨i, hi2, rfl⟩ := List.mem_map.mp hx
    rw [List.mem_range, Int.lt_toNat] at hi2
    omega
  · rintro ⟨h1, h2⟩
    apply List.mem_map.mpr
    refine ⟨(x - lo).toNat, ?_, by omega⟩
    rw [List.mem_range, Int.lt_toNat]
    omega

theorem requiredQuestions_nonneg {q : ℤ} {w : ℚ} (hq : 0 ≤ q) (hw : 0 ≤ w) :
    0 ≤ requiredQuestions q w := by
  rw [requiredQuestions]
  split
  · exact Int.zero_le_ofNat 1
  · rw [goRound_eq, qmul_eq, round_eq, Int.floor_nonneg]
    have h1 : (0 : ℚ) ≤ (q : ℚ) * w := mul_nonneg (by exact_mod_cast hq) hw
    linarith

theorem candidateUsed_nonneg {dw : List (String × ℚ)} {q : ℤ}
    (hq : 0 ≤ q) (hw : ∀ p ∈ dw, 0 ≤ p.2) :
    0 ≤ candidateUsed (candidateReqs dw q) := by
  rw [candidateUsed, candidateReqs]
  apply List.sum_nonneg
  intro x hx
  rw [List.map_map] at hx
  obtain ⟨p, hp, rfl⟩ := List.mem_map.mp hx
  exact requiredQuestions_nonneg hq (hw p hp)

theorem indicator_sum_le_one (dom : String) :
    ∀ (ds : List String), ds.Nodup →
      (ds.map (fun d => if dom == d then (1 : ℤ) else 0)).sum ≤ 1 := by
  intro ds
  induction ds with
  | nil => intro _; simp
  | cons d rest ih =>
    intro hnd
    rw [List.map_cons, List.sum_cons]
    by_cases hd : (dom == d) = true
    · rw [if_pos hd]
      have hzero : (rest.map (fun d2 => if dom == d2 then (1 : ℤ) else 0)).sum = 0 := by
        apply List.sum_eq_zero
        intro x hx
        obtain ⟨d2, hd2, rfl⟩ := List.mem_map.mp hx
        rw [if_neg]
        intro hbeq
        apply (List.nodup_cons.mp hnd).1
        have h1 : dom = d2 := beq_iff_eq.mp hbeq
        have h2 : dom = d := beq_iff_eq.mp hd
        rw [← h2, h1]
        exact hd2
      omega
    · rw [if_neg hd]
      have := ih (List.nodup_cons.mp hnd).2
      omega

theorem sum_domainCounts_le (ds : List String) (hnd : ds.Nodup) :
    ∀ questions : List Question,
      (ds.map (domainCountsOf questions)).sum ≤ (questions.length : ℤ) := by
  intro questions
  induction questions with
  | nil =>
    have h0 : ∀ d ∈ ds, domainCountsOf [] d = 0 := fun d _ => rfl
    rw [List.map_congr_left h0]
    simp
  | cons qq rest ih =>
    have hstep : ∀ d ∈ ds, domainCountsOf (qq :: rest) d =
        domainCountsOf rest d + (if qq.domain == d then (1 : ℤ) else 0) := by
      intro d _
      rw [domainCountsOf, domainCountsOf, List.filter_cons]
      split
      · push_cast [List.length_cons]
        ring
      · simp
    rw [List.map_congr_left hstep, list_sum_map_add]
    have h1 := indicator_sum_le_one qq.domain ds hnd
    rw [List.length_cons]
    push_cast
    omega

theorem goodCandidate_iff {questions : List Question} {dw : List (String × ℚ)} {q : ℤ} :
    goodCandidate questions dw q = true ↔
      candidateFeasible (domainCountsOf questions) (candidateReqs dw q) = true ∧
      candidateUsed (candidateReqs dw q) ≠ 0 := by
  rw [goodCandidate, Bool.and_eq_true, Bool.not_eq_true', beq_eq_false_iff_ne]

theorem candidateUsed_le_total {questions : List Question} {dw : List (String × ℚ)}
    {q : ℤ} (hkeys : (dw.map Prod.fst).Nodup)
    (hfeas : candidateFeasible (domainCountsOf questions) (candidateReqs dw q) = true) :
    candidateUsed (candidateReqs dw q) ≤ (questions.length : ℤ) := by
  have h1 : ∀ p ∈ candidateReqs dw q, p.2 ≤ domainCountsOf questions p.1 := by
    rw [candidateFeasible, List.all_eq_true] at hfeas
    intro p hp
    simpa using hfeas p hp
  calc candidateUsed (candidateReqs dw q)
      = ((candidateReqs dw q).map Prod.snd).sum := rfl
    _ ≤ ((candidateReqs dw q).map (fun p => domainCountsOf questions p.1)).sum :=
        List.sum_le_sum h1
    _ = ((dw.map Prod.fst).map (domainCountsOf questions)).sum := by
        rw [candidateReqs, List.map_map, List.map_map]
        rfl
    _ ≤ (questions.length : ℤ) := sum_domainCounts_le _ hkeys questions

theorem tmod_bounds {T u : ℤ} (hT : 0 ≤ T) (hu : 0 < u) :
    0 ≤ T.tmod u ∧ T.tmod u < u := by
  rw [Int.tmod_eq_emod hT (le_of_lt hu)]
  exact ⟨Int.emod_nonneg T (ne_of_gt hu), Int.emod_lt_of_pos T hu⟩

theorem planStep_not_good {questions : List Question} {dw : List (String × ℚ)}
    {st : PlanSearch} {c : ℤ} (hng : goodCandidate questions dw c = false) :
    planStep (questions.length : ℤ) (domainCountsOf questions) dw st c = st := by
  have h : candidateFeasible (domainCountsOf questions) (candidateReqs dw c) = true →
      candidateUsed (candidateReqs dw c) = 0 := by
    intro hfeas
    by_contra hu
    rw [goodCandidate_iff.mpr ⟨hfeas, hu⟩] at hng
    exact Bool.noConfusion hng
  simp only [planStep]
  by_cases hfeas : candidateFeasible (domainCountsOf questions) (candidateReqs dw c) = true
  · rw [if_pos hfeas, if_pos (h hfeas)]
  · rw [if_neg hfeas]

theorem planStep_good {questions : List Question} {dw : List (String × ℚ)}
    {st : PlanSearch} {c : ℤ} (hg : goodCandidate questions dw c = true) :
    planStep (questions.length : ℤ) (domainCountsOf questions) dw st c =
      if candidateRem questions dw c < st.bestRemainder ∨
          (candidateRem questions dw c = st.bestRemainder ∧
            st.bestNumExams < candidateNum questions dw c) then
        ⟨candidatePlan questions dw c, candidateRem questions dw c,
          candidateNum questions dw c⟩
      else st := by
  obtain ⟨hfeas, hu⟩ := goodCandidate_iff.mp hg
  simp only [planStep]
  rw [if_pos hfeas, if_neg hu]
  rfl

theorem planStep_inv {questions : List Question} {dw : List (String × ℚ)}
    (hkeys : (dw.map Prod.fst).Nodup) (hw : ∀ p ∈ dw, 0 ≤ p.2)
    {processed : List ℤ} {st : PlanSearch} {c : ℤ} (hc : 0 ≤ c)
    (hinv : planSearchInv questions dw processed st) :
    planSearchInv questions dw (processed ++ [c])
      (planStep (questions.length : ℤ) (domainCountsOf questions) dw st c) := by
  by_cases hg : goodCandidate questions dw c = true
  · obtain ⟨hfeas, hune⟩ := goodCandidate_iff.mp hg
    have hupos : 0 < candidateUsed (candidateReqs dw c) :=
      lt_of_le_of_ne (candidateUsed_nonneg hc hw) (Ne.symm hune)
    have huleT : candidateUsed (candidateReqs dw c) ≤ (questions.length : ℤ) :=
      candidateUsed_le_total hkeys hfeas
    have hrem : 0 ≤ candidateRem questions dw c ∧
        candidateRem questions dw c < candidateUsed (candidateReqs dw c) :=
      tmod_bounds (Int.ofNat_nonneg _) hupos
    rw [planStep_good hg]
    rcases hinv with ⟨hst, hall⟩ | ⟨q, hq, hgq, hst, hminq⟩
    · subst hst
      rw [if_pos (Or.inl (lt_of_lt_of_le hrem.2 huleT))]
      right
      refine ⟨c, by simp, hg, rfl, ?_⟩
      intro r hr hgr
      rcases List.mem_append.mp hr with hr | hr
      · rw [hall r hr] at hgr
        exact absurd hgr Bool.false_ne_true
      · have hrc : r = c := by simpa using hr
        subst hrc
        exact ⟨le_refl _, fun _ => le_refl _⟩
    · subst hst
      by_cases hcond : candidateRem questions dw c < candidateRem questions dw q ∨
          (candidateRem questions dw c = candidateRem questions dw q ∧
            candidateNum questions dw q < candidateNum questions dw c)
      · rw [if_pos hcond]
        right
        refine ⟨c, by simp, hg, rfl, ?_⟩
        intro r hr hgr
        rcases List.mem_append.mp hr with hr | hr
        · have hqr := hminq r hr hgr
          rcases hcond with hlt | ⟨heq, hnum⟩
          · refine ⟨le_trans (le_of_lt hlt) hqr.1, fun hcr => ?_⟩
            have := hqr.1
            omega
          · refine ⟨heq ▸ hqr.1, fun hcr => ?_⟩
            have h2 := hqr.2 (by omega)
            omega
        · have hrc : r = c := by simpa using hr
          subst hrc
          exact ⟨le_refl _, fun _ => le_refl _⟩
      · rw [if_neg hcond]
        push_neg at hcond
        right
        refine ⟨q, List.mem_append_left _ hq, hgq, rfl, ?_⟩
        intro r hr hgr
        rcases List.mem_append.mp hr with hr | hr
        · exact hminq r hr hgr
        · have hrc : r = c := by simpa using hr
          subst hrc
          refine ⟨hcond.1, fun hqc => ?_⟩
          exact hcond.2 hqc.symm
  · have hng : goodCandidate questions dw c = false := Bool.eq_false_iff.mpr hg
    rw [planStep_not_good hng]
    rcases hinv with ⟨hst, hall⟩ | ⟨q, hq, hgq, hst, hminq⟩
    · left
      refine ⟨hst, ?_⟩
      intro r hr
      rcases List.mem_append.mp hr with hr | hr
      · exact hall r hr
      · have hrc : r = c := by simpa using hr
        subst hrc
        exact hng
    · right
      refine ⟨q, List.mem_append_left _ hq, hgq, hst, ?_⟩
      intro r hr hgr
      rcases List.mem_append.mp hr with hr | hr
      · exact hminq r hr hgr
      · have hrc : r = c := by simpa using hr
        subst hrc
        exact absurd hgr hg

theorem planFold_inv {questions : List Question} {dw : List (String × ℚ)}
    (hkeys : (dw.map Prod.fst).Nodup) (hw : ∀ p ∈ dw, 0 ≤ p.2) :
    ∀ (cs processed : List ℤ) (st : PlanSearch),
      (∀ c ∈ cs, 0 ≤ c) →
      planSearchInv questions dw processed st →
      planSearchInv questions dw (processed ++ cs)
        (cs.foldl (planStep (questions.length : ℤ) (domainCountsOf questions) dw) st) := by
  intro cs
  induction cs with
  | nil =>
    intro processed st _ hinv
    simpa using hinv
  | cons c rest ih =>
    intro processed st hpos hinv
    rw [List.foldl_cons]
    have h1 := planStep_inv hkeys hw (hpos c (by simp)) hinv
    have h2 := ih (processed ++ [c]) _ (fun x hx => hpos x (by simp [hx])) h1
    simpa [List.append_assoc] using h2

/-- C1: `GenerateExamPlan` evaluates every candidate size in
`[minQuestions, maxQuestions]`; it fails with the "insufficient
questions" error exactly when no candidate is good (some domain's
available count is below its rounded-with-floor-1 requirement, or the
summed requirements are zero), and a returned plan is the plan of a good
candidate whose remainder (`totalQuestions mod` summed requirements) is
minimal among good candidates, ties broken towards the larger exam
count.  Stated for distinct weighted domain names (a Go map), nonnegative
weights, and a nonnegative lower bound. -/
theorem generateExamPlan_spec (questions : List Question) (minQ maxQ : ℤ)
    (dw : List (String × ℚ))
    (hkeys : (dw.map Prod.fst).Nodup) (hw : ∀ p ∈ dw, 0 ≤ p.2) (hmin : 0 ≤ minQ) :
    (GenerateExamPlan questions minQ maxQ dw = .error insufficientMsg ↔
      ∀ q, minQ ≤ q → q ≤ maxQ → goodCandidate questions dw q = false) ∧
    (∀ plan, GenerateExamPlan questions minQ maxQ dw = .ok plan →
      ∃ q, minQ ≤ q ∧ q ≤ maxQ ∧ goodCandidate questions dw q = true ∧
        plan = candidatePlan questions dw q ∧
        ∀ r, minQ ≤ r → r ≤ maxQ → goodCandidate questions dw r = true →
          candidateRem questions dw q ≤ candidateRem questions dw r ∧
          (candidateRem questions dw q = candidateRem questions dw r →
            candidateNum questions dw r ≤ candidateNum questions dw q)) := by
  have hinv0 : planSearchInv questions dw []
      ⟨default, (questions.length : ℤ), 0⟩ :=
    Or.inl ⟨rfl, by intro q hq; cases hq⟩
  have hfold := planFold_inv hkeys hw (intRange minQ maxQ) [] _
    (fun c hc => le_trans hmin (mem_intRange.mp hc).1) hinv0
  rw [List.nil_append] at hfold
  simp only [GenerateExamPlan]
  rcases hfold with ⟨hst, hall⟩ | ⟨q, hq, hgq, hst, hmin2⟩
  · rw [hst]
    have h0 : ((⟨default, (questions.length : ℤ), 0⟩ :
        PlanSearch)).bestPlan.questionsPerExam = (0 : ℤ) := rfl
    rw [if_pos h0]
    refine ⟨⟨fun _ q hq1 hq2 => hall q (mem_intRange.mpr ⟨hq1, hq2⟩),
      fun _ => rfl⟩, ?_⟩
    intro plan hplan
    exact absurd hplan (by simp)
  · rw [hst]
    have hne : candidateUsed (candidateReqs dw q) ≠ 0 := (goodCandidate_iff.mp hgq).2
    have hcond : ¬((⟨candidatePlan questions dw q, candidateRem questions dw q,
        candidateNum questions dw q⟩ : PlanSearch).bestPlan.questionsPerExam = 0) := hne
    constructor
    · constructor
      · intro herr
        rw [if_neg hcond] at herr
        exact absurd herr (by simp)
      · intro hallbad
        have := hallbad q (mem_intRange.mp hq).1 (mem_intRange.mp hq).2
        rw [this] at hgq
        exact absurd hgq Bool.false_ne_true
    · intro plan hplan
      rw [if_neg hcond] at hplan
      have hpe : candidatePlan questions dw q = plan := by
        simpa using hplan
      refine ⟨q, (mem_intRange.mp hq).1, (mem_intRange.mp hq).2, hgq, hpe.symm, ?_⟩
      intro r hr1 hr2 hgr
      exact hmin2 r (mem_intRange.mpr ⟨hr1, hr2⟩) hgr

/-- Closed witness for `generateExamPlan_spec`: on the ten-question
two-domain pool with bounds 4..6 and equal weights the planner returns
the 2-exam, 4-question plan, and the spec's error characterisation is
obtained from the theorem at this input. -/
theorem generateExamPlan_witness :
    (dwAB.map Prod.fst).Nodup ∧
    GenerateExamPlan pool10 4 6 dwAB = .ok ⟨2, 4, [("A", 2), ("B", 2)]⟩ ∧
    (GenerateExamPlan pool10 4 6 dwAB = .error insufficientMsg ↔
      ∀ q, 4 ≤ q → q ≤ 6 → goodCandidate pool10 dwAB q = false) :=
  ⟨by decide, by decide,
    (generateExamPlan_spec pool10 4 6 dwAB (by decide) (by decide) (by decide)).1⟩

end Recap
